import Mathlib

/-!
Verification development for the teobot thread/context reconciliation engine.

Shallow embedding conventions:
* Go strings manipulated rune-wise (`internal/text`, `internal/textsplit`) are
  modelled as `List Char`; `Text.Len()` (rune count) is `List.length`.
* Database rows (`chatgpt_messages`, `chatgpt_threads`, `chatgpt_threads_rel`)
  are records in lists; SQL queries from `query.sql` are functions on that
  state; `ORDER BY` is `List.insertionSort`.
* Fallible operations return `Option`/`Except`; external oracles (fresh ids,
  insertion failures, the LLM, Go map iteration order) are explicit parameters.
-/

/-! ### Text model (`internal/text`, `internal/textsplit`) -/

/-- Embeds `strings.Split(raw, "\n")` from `Text.Split` for the single-char
separator actually used: split a rune list on newline characters. -/
def splitOnNl : List Char → List (List Char)
  | [] => [[]]
  | c :: cs =>
    match splitOnNl cs with
    | [] => [[]]
    | p :: ps => if c = '\n' then [] :: p :: ps else (c :: p) :: ps

/-- Inverse of `splitOnNl`: join pieces with a newline between consecutive
pieces. Used to state the splitter round-trip property. -/
def joinNl : List (List Char) → List Char
  | [] => []
  | [p] => p
  | p :: ps => p ++ '\n' :: joinNl ps

/-- One step of `SplitText`'s accumulation: append `line` to the current part,
inserting a newline only when the part is nonempty (textsplit.go lines 33-36). -/
def joinCur (cur line : List Char) : List Char :=
  if cur.length > 0 then cur ++ '\n' :: line else cur ++ line

/-- The distribution loop of `TextSplitService.SplitText` (textsplit.go lines
27-41). `cur` is `parts[lastIdx]`; a line is merged into `cur` when
`cur.Len()+1+line.Len() <= maxPartLen`, otherwise `cur` is finalized and the
line starts a new part. -/
def splitLoop (n : Nat) (cur : List Char) : List (List Char) → List (List Char)
  | [] => [cur]
  | l :: ls =>
    if cur.length + 1 + l.length ≤ n then splitLoop n (joinCur cur l) ls
    else cur :: splitLoop n l ls

/-- `TextSplitService.SplitText(t, maxPartLen)`: split into lines, then
greedily pack lines into parts, starting from the initial empty part
(`parts := []*text.Text{text.New("")}`). -/
def splitTextGo (t : List Char) (n : Nat) : List (List Char) :=
  splitLoop n [] (splitOnNl t)

/-- Embeds `text.ReplaceAll(t, "@", "@ ")` (strings.ReplaceAll with the
single-char pattern used in `ReplyAndPost`). -/
def sanitizeAt : List Char → List Char
  | [] => []
  | c :: cs => if c = '@' then '@' :: ' ' :: sanitizeAt cs else c :: sanitizeAt cs

/-- The chunk texts posted by `ReplyAndPost` (mastodon.go lines 515-522):
sanitize the reply content, then split only when longer than 450 runes. -/
def postTexts (content : List Char) : List (List Char) :=
  let s := sanitizeAt content
  if s.length > 450 then splitTextGo s 450 else [s]

/-- Body of one posted status: `fmt.Sprintf("@%s %s", acct, text)`
(mastodon.go line 531). -/
def mentionBody (acct t : List Char) : List Char :=
  '@' :: (acct ++ ' ' :: t)

/-- All bodies posted for one reply, in posting order. -/
def postedBodies (content acct : List Char) : List (List Char) :=
  (postTexts content).map (mentionBody acct)

/-- Every occurrence of the at-sign is immediately followed by a space. -/
def atOk (l : List Char) : Prop :=
  ∀ i : Nat, l[i]? = some '@' → l[i + 1]? = some ' '

/-- All lines of `t` are nonempty. -/
def noEmptyLines (t : List Char) : Prop :=
  ∀ l ∈ splitOnNl t, l ≠ []

/-- The first line of `t` fits into the initial empty part of the splitter. -/
def firstLineFits (t : List Char) (n : Nat) : Prop :=
  ((splitOnNl t).headD []).length + 1 ≤ n

/-! ### Data model (`chatgpt_messages`, `chatgpt_threads`, `chatgpt_threads_rel`) -/

/-- Message ids (`chatgpt_messages.id`, UUIDv7 in the source) as abstract
distinct tokens. -/
abbrev MsgId := Nat

/-- Thread ids (`chatgpt_threads.id`). -/
abbrev ThreadId := Nat

/-- The `service.Message` payload serialized into `json_body`. The embedding
keeps the structured value; `json.Marshal`/`json.Unmarshal` round-trip. -/
structure Msg where
  role : String
  content : String
  name : String
deriving DecidableEq, Repr

/-- A row of `chatgpt_messages` (fields used by the engine). -/
structure MessageRow where
  id : MsgId
  messageType : String
  body : Msg
  userName : String
  mastodonStatusId : Option String
  timestamp : String
  privacyLevel : String
deriving DecidableEq, Repr

/-- A row of `chatgpt_threads_rel`. -/
structure ThreadRel where
  threadId : ThreadId
  chatgptMessageId : MsgId
  sequenceNum : Int
deriving DecidableEq, Repr

/-- The durable store: message rows, thread rows, thread-membership rows. -/
structure Db where
  messages : List MessageRow
  threads : List ThreadId
  rels : List ThreadRel
deriving DecidableEq, Repr

/-- A Mastodon status as consumed by the frontend (`mastodon.Status`). -/
structure Status where
  id : String
  inReplyToId : String
  content : String
  accountId : String
  accountAcct : String
  visibility : String
  createdAt : String
deriving DecidableEq, Repr

/-- Embeds `getPrivacyLevel` (mastodon.go lines 113-118). -/
def getPrivacyLevel (s : Status) : String :=
  if s.visibility = "direct" ∨ s.visibility = "private" then "private" else "public"

/-- Embeds `convertToMessage` (mastodon.go lines 92-102): role is assistant
exactly when the author is the bot's own account; content is the normalized
status content (`NormalizeStatusContent`, kept abstract as `normalize`). -/
def convertToMessage (myAccountId : String) (normalize : Status → String) (s : Status) : Msg :=
  { role := if s.accountId = myAccountId then "assistant" else "user"
    content := normalize s
    name := s.accountAcct }

/-- SQL `ORDER BY thread_id, sequence_num` comparison. -/
def relLe (a b : ThreadRel) : Prop :=
  a.threadId < b.threadId ∨ (a.threadId = b.threadId ∧ a.sequenceNum ≤ b.sequenceNum)

instance : DecidableRel relLe := fun a b =>
  inferInstanceAs (Decidable (_ ∨ _))

instance : IsTotal ThreadRel relLe :=
  ⟨fun a b => by
    unfold relLe
    rcases Nat.lt_trichotomy a.threadId b.threadId with h | h | h
    · exact Or.inl (Or.inl h)
    · rcases Int.le_total a.sequenceNum b.sequenceNum with h2 | h2
      · exact Or.inl (Or.inr ⟨h, h2⟩)
      · exact Or.inr (Or.inr ⟨h.symm, h2⟩)
    · exact Or.inr (Or.inl h)⟩

instance : IsTrans ThreadRel relLe :=
  ⟨fun a b c hab hbc => by
    unfold relLe at *
    rcases hab with h1 | ⟨h1, h1s⟩ <;> rcases hbc with h2 | ⟨h2, h2s⟩
    · exact Or.inl (h1.trans h2)
    · exact Or.inl (h2 ▸ h1)
    · exact Or.inl (h1 ▸ h2)
    · exact Or.inr ⟨h1.trans h2, h1s.trans h2s⟩⟩

/-- SQL `ORDER BY sequence_num` comparison on joined rows. -/
def rowSeqLe (a b : MessageRow × Int) : Prop := a.2 ≤ b.2

instance : DecidableRel rowSeqLe := fun a b =>
  inferInstanceAs (Decidable (_ ≤ _))

instance : IsTotal (MessageRow × Int) rowSeqLe :=
  ⟨fun a b => Int.le_total a.2 b.2⟩

instance : IsTrans (MessageRow × Int) rowSeqLe :=
  ⟨fun _ _ _ hab hbc => le_trans hab hbc⟩

/-- All `chatgpt_threads_rel` rows of one thread, in stored order. -/
def relsOfThread (db : Db) (t : ThreadId) : List ThreadRel :=
  db.rels.filter (fun r => r.threadId == t)

/-- Thread ids of rel rows pointing at a message: the inner
`SELECT DISTINCT thread_id FROM chatgpt_threads_rel WHERE chatgpt_message_id = $1`
of `GetChatgptThreadRels` (dedup not needed for membership). -/
def threadsContaining (db : Db) (mid : MsgId) : List ThreadId :=
  (db.rels.filter (fun r => r.chatgptMessageId == mid)).map (fun r => r.threadId)

/-- Embeds the `GetChatgptThreadRels` query: every rel row belonging to any
thread that contains the message, `ORDER BY thread_id, sequence_num`. -/
def getChatgptThreadRels (db : Db) (mid : MsgId) : List ThreadRel :=
  List.insertionSort relLe
    (db.rels.filter (fun r => (threadsContaining db mid).contains r.threadId))

/-- Embeds the grouping loop of `findThreadsContainingMessageId` (mastodon.go
lines 133-141): append the row to its thread's slice, creating the entry on
first sight. -/
def addToGroups (groups : List (ThreadId × List ThreadRel)) (r : ThreadRel) : List (ThreadId × List ThreadRel) :=
  match groups with
  | [] => [(r.threadId, [r])]
  | (t, rs) :: gs =>
    if t == r.threadId then (t, rs ++ [r]) :: gs else (t, rs) :: addToGroups gs r

/-- Group rel rows by thread id (Go builds a map; the list records entries in
first-occurrence order, and resolver theorems quantify over iteration order). -/
def groupByThread (rels : List ThreadRel) : List (ThreadId × List ThreadRel) :=
  rels.foldl addToGroups []

/-- The current-thread check of `GetOrCreateCurrentThreadId` (mastodon.go line
177): the thread's last rel row (highest position of the per-thread slice)
points at the message. -/
def findCurrent (groups : List (ThreadId × List ThreadRel)) (mid : MsgId) : Option ThreadId :=
  (groups.find? (fun g => g.2.getLast?.any (fun r => r.chatgptMessageId == mid))).map
    (fun g => g.1)

/-- Append a fresh `chatgpt_threads` row (`createNewThread`, committed on its
own, outside any surrounding transaction). -/
def addThread (db : Db) (t : ThreadId) : Db :=
  { db with threads := db.threads ++ [t] }

/-- The insertion loop of `cloneThread` (mastodon.go lines 214-227): insert a
rel row for each source row, retargeted at the new thread with the sequence
number preserved, stopping after the cutoff message; `none` models an
insertion error (which rolls the transaction back). `fail` is the
per-row failure oracle. -/
def insertRelsUpTo (newT : ThreadId) (mid : MsgId) (fail : ThreadRel → Bool) : List ThreadRel → Option (List ThreadRel)
  | [] => some []
  | r :: rs =>
    if fail r then none
    else
      let inserted : ThreadRel := { threadId := newT, chatgptMessageId := r.chatgptMessageId, sequenceNum := r.sequenceNum }
      if r.chatgptMessageId == mid then some [inserted]
      else (insertRelsUpTo newT mid fail rs).map (fun l => inserted :: l)

/-- Embeds `cloneThread` (mastodon.go lines 198-231): create the new thread
(outside the transaction), then copy the base thread's rel rows up to and
including the cutoff inside one transaction; on failure the rel inserts are
rolled back (the fresh thread row itself stays committed). -/
def cloneThread (freshT : ThreadId) (base : List ThreadRel) (mid : MsgId) (fail : ThreadRel → Bool) (db : Db) :
    Option ThreadId × Db :=
  let db1 := addThread db freshT
  match insertRelsUpTo freshT mid fail base with
  | none => (none, db1)
  | some rs => (some freshT, { db1 with rels := db1.rels ++ rs })

/-- A new `chatgpt_messages` row built by `ReconcileThread` for one ancestor
status (mastodon.go lines 255-283). -/
def mkChatgptRow (myAccountId : String) (normalize : Status → String) (mid : MsgId) (s : Status) :
    MessageRow :=
  { id := mid
    messageType := "mastodon_status"
    body := convertToMessage myAccountId normalize s
    userName := s.accountAcct
    mastodonStatusId := some s.id
    timestamp := s.createdAt
    privacyLevel := getPrivacyLevel s }

/-- Embeds `ReconcileThread` (mastodon.go lines 236-308) given the reply
tree's ancestors (root-first, as returned by `GetReplyTree`; the Mastodon
context endpoint never includes the status itself). Per-message failures
(marshal, timestamp parse, insert) are `msgFail` and skip the message;
per-rel failures are `relFail` and skip the rel row, both best-effort
(`continue`), and the transaction commits whatever succeeded. -/
def reconcileThread (myAccountId : String) (normalize : Status → String) (freshMsgId : Nat → MsgId)
    (msgFail : Status → Bool) (relFail : Nat → Bool) (tid : ThreadId) (ancestors : List Status)
    (db : Db) : Option ThreadId × Db :=
  let kept := ancestors.filter (fun s => !(msgFail s))
  let rows := kept.enum.map (fun p => mkChatgptRow myAccountId normalize (freshMsgId p.1) p.2)
  let rels := (rows.enum.filter (fun p => !(relFail p.1))).map
    (fun p => { threadId := tid, chatgptMessageId := p.2.id, sequenceNum := (p.1 : Int) + 1 : ThreadRel })
  (some tid,
    { db with
      messages := db.messages ++ rows
      threads := db.threads ++ [tid]
      rels := db.rels ++ rels })

/-- Oracle inputs of one `GetOrCreateCurrentThreadId` call: fresh ids, the
network reply tree, failure oracles, and the Go map iteration order. -/
structure ResolveEnv where
  myAccountId : String
  normalize : Status → String
  iter : List (ThreadId × List ThreadRel) → List (ThreadId × List ThreadRel)
  freshThreadId : ThreadId
  cloneFail : ThreadRel → Bool
  ancestorsOf : String → List Status
  reconThreadId : ThreadId
  freshMsgId : Nat → MsgId
  msgFail : Status → Bool
  relFail : Nat → Bool

/-- Embeds `GetOrCreateCurrentThreadId` (mastodon.go lines 147-188):
non-replies get a fresh thread; unknown parents trigger reconciliation;
otherwise the unique thread having the parent as its last message is
returned, and failing that, a fork clones the last-iterated candidate. -/
def getOrCreateCurrentThreadId (env : ResolveEnv) (db : Db) (status : Status) :
    Option ThreadId × Db :=
  if status.inReplyToId = "" then (some env.freshThreadId, addThread db env.freshThreadId)
  else
    match db.messages.find? (fun m => m.mastodonStatusId == some status.inReplyToId) with
    | none =>
      reconcileThread env.myAccountId env.normalize env.freshMsgId env.msgFail env.relFail
        env.reconThreadId (env.ancestorsOf status.id) db
    | some mes =>
      let groups := groupByThread (getChatgptThreadRels db mes.id)
      if groups = [] then (some env.freshThreadId, addThread db env.freshThreadId)
      else
        match findCurrent (env.iter groups) mes.id with
        | some t => (some t, db)
        | none =>
          match (env.iter groups).getLast? with
          | some g => cloneThread env.freshThreadId g.2 mes.id env.cloneFail db
          | none => (none, db)

/-- One joined row of the `GetChatgptMessagesByThreadId` query: a rel row of
the thread paired with its message row (INNER JOIN drops rel rows without a
matching message). -/
def joinRow (msgs : List MessageRow) (t : ThreadId) (r : ThreadRel) : Option (MessageRow × Int) :=
  if r.threadId == t then
    (msgs.find? (fun m => m.id == r.chatgptMessageId)).map
      (fun m => (m, r.sequenceNum))
  else none

/-- Embeds the `GetChatgptMessagesByThreadId` query (query.sql lines 16-24):
join rel rows of the thread with their message rows, drop
`pseudo_message` rows, `ORDER BY sequence_num`. The joined row keeps its
sequence number for stating order properties. -/
def getChatgptMessagesByThreadId (db : Db) (t : ThreadId) : List (MessageRow × Int) :=
  List.insertionSort rowSeqLe
    ((db.rels.filterMap (joinRow db.messages t)).filter
      (fun p => !(p.1.messageType == "pseudo_message")))

/-- Embeds `RestoreThread` (mastodon.go lines 310-326): unmarshal each
returned `json_body` back into a `service.Message`. -/
def restoreThread (db : Db) (t : ThreadId) : List Msg :=
  (getChatgptMessagesByThreadId db t).map (fun p => p.1.body)

/-- Sequence numbers underlying the rows `restoreThread` returns, in returned
order. -/
def threadSeqs (db : Db) (t : ThreadId) : List Int :=
  (getChatgptMessagesByThreadId db t).map (fun p => p.2)

/-- Mastodon status ids of the rows `restoreThread` returns, in returned
order. -/
def threadStatusIds (db : Db) (t : ThreadId) : List (Option String) :=
  (getChatgptMessagesByThreadId db t).map (fun p => p.1.mastodonStatusId)

/-! ### Reply pipeline events (`ReplyAndPost`) -/

/-- Observable storage/network events of `ReplyAndPost`, in program order. -/
inductive Ev where
  | saveMsg (messageType : String) (statusId : Option String)
  | postStatus (body : List Char) (inReplyTo : String)
deriving DecidableEq, Repr

/-- Decides whether an event is a network post. -/
def Ev.isPost : Ev → Bool
  | .postStatus _ _ => true
  | _ => false

/-- Decides whether an event persists a message of the given type. -/
def Ev.isSaveOf (ty : String) : Ev → Bool
  | .saveMsg ty' _ => ty' == ty
  | _ => false

/-- The posting loop of `ReplyAndPost` (mastodon.go lines 529-553): post each
chunk chained to the previous post's id; after the first chunk persist the
model's reply (`ai_response`), after later chunks persist a
`pseudo_message`. `postIds i` is the id Mastodon assigns to the i-th posted
status (the success-path oracle). -/
def postLoop (acct : List Char) (postIds : Nat → String) : List (List Char) → Nat → String → List Ev
  | [], _, _ => []
  | t :: ts, i, inReplyTo =>
    Ev.postStatus (mentionBody acct t) inReplyTo ::
      Ev.saveMsg (if i = 0 then "ai_response" else "pseudo_message") (some (postIds i)) ::
        postLoop acct postIds ts (i + 1) (postIds i)

/-- Event trace of a successful `ReplyAndPost` run (mastodon.go lines
508-556): sanitize and split the reply, persist the user's message
(`user_status`, tagged with the triggering status id), then run the posting
loop. -/
def replyAndPostEvents (content acct : List Char) (statusId : String) (postIds : Nat → String) :
    List Ev :=
  Ev.saveMsg "user_status" (some statusId) :: postLoop acct postIds (postTexts content) 0 statusId

/-! ### Notification cursor (`Run`) -/

/-- Go string comparison `a < b` (lexicographic; byte order coincides with
code-point order on the ASCII ids Mastodon issues). -/
def goStrLt : List Char → List Char → Bool
  | [], [] => false
  | [], _ :: _ => true
  | _ :: _, [] => false
  | a :: as, b :: bs =>
    if a.toNat < b.toNat then true
    else if b.toNat < a.toNat then false
    else goStrLt as bs

/-- Larger of two ids under Go string comparison. -/
def goStrMax (a b : List Char) : List Char :=
  if goStrLt a b then b else a

/-- Cursor evolution of `Run` (mastodon.go lines 570-585): for each
notification in order, attempt `ReplyAndPost` (`ok` is its success oracle);
on failure `continue` (no cursor change); on success advance the cursor when
the notification id is string-greater. -/
def runCursor (cursor : List Char) (ok : List Char → Bool) : List (List Char) → List Char
  | [] => cursor
  | r :: rs =>
    if ok r then runCursor (goStrMax cursor r) ok rs
    else runCursor cursor ok rs

/-- Numeric reading of a decimal id string ("" reads as 0). -/
def digitsToNat (l : List Char) : Nat :=
  l.foldl (fun n c => n * 10 + (c.toNat - 48)) 0

/-- The cursor value the claim asserts: numeric maximum of the prior cursor
and every attempted notification id. Stated from the spec's words, for
comparison with the code's behaviour. -/
def claimNumericCursor (cursor : List Char) (ids : List (List Char)) : Nat :=
  (ids.map digitsToNat).foldl Nat.max (digitsToNat cursor)

/-! ### LLM chat loops (`TeobotService.chat` / `TeobotService.Chat`) -/

/-- One model response: content plus the tool calls it requests. -/
structure LlmResp where
  content : String
  toolCalls : List String
deriving DecidableEq, Repr

/-- Decides whether a model invocation succeeded and still requests tools. -/
def pendingTools : Except String LlmResp → Bool
  | .ok r => !r.toolCalls.isEmpty
  | .error _ => false

/-- The TypeScript tool loop (teobotService.ts lines 123-163): up to 10
completions; each response with pending tool calls feeds tool results back;
a response without tool calls is returned together with the number of model
invocations made; exhausting the bound throws (the post-loop role check). -/
def chatTsAux (rs : Nat → Except String LlmResp) : Nat → Nat → Except String (LlmResp × Nat)
  | _, 0 => .error ("tool calls still pending after the iteration bound")
  | i, fuel + 1 =>
    match rs i with
    | .error e => .error e
    | .ok r => if r.toolCalls.isEmpty then .ok (r, i + 1) else chatTsAux rs (i + 1) fuel

/-- Entry point of the TypeScript chat operation. -/
def chatTs (rs : Nat → Except String LlmResp) : Except String (LlmResp × Nat) :=
  chatTsAux rs 0 10

/-- The Go tool loop (`TeobotService.Chat`, internal/service, lines 338-384):
after the initial invocation, up to 10 further invocations resolve tool
calls; the loop simply ends when the bound is hit, returning the last
response with no error even when it still requests tools. -/
def chatGoAux (rs : Nat → Except String LlmResp) : LlmResp → Nat → Nat → Except String (LlmResp × Nat)
  | r, k, 0 => .ok (r, k)
  | r, k, fuel + 1 =>
    if r.toolCalls.isEmpty then .ok (r, k)
    else
      match rs k with
      | .error e => .error e
      | .ok r' => chatGoAux rs r' (k + 1) fuel

/-- Entry point of the Go chat operation: initial invocation, then the tool
loop only when the first response carries tool calls. -/
def chatGo (rs : Nat → Except String LlmResp) : Except String (LlmResp × Nat) :=
  match rs 0 with
  | .error e => .error e
  | .ok r0 => if r0.toolCalls.isEmpty then .ok (r0, 1) else chatGoAux rs r0 1 10

/-! ### Helper predicates used in claim statements -/

/-- The message is the last message of the thread: its rel row has a strictly
greater sequence number than every other rel row of the thread. -/
def isLastMessageOf (db : Db) (mid : MsgId) (t : ThreadId) : Prop :=
  ∃ r ∈ relsOfThread db t, r.chatgptMessageId = mid ∧
    ∀ r' ∈ relsOfThread db t, r' ≠ r → r'.sequenceNum < r.sequenceNum

/-- Well-formedness of one thread: no two of its rel rows share a sequence
number. -/
def distinctSeqs (db : Db) (t : ThreadId) : Prop :=
  (relsOfThread db t).Pairwise (fun a b => a.sequenceNum ≠ b.sequenceNum)

/-- Some stored message row carries this Mastodon status id. -/
def isStoredStatus (db : Db) (sid : String) : Bool :=
  db.messages.any (fun m => m.mastodonStatusId == some sid)

/-! ### Splitter lemmas (claim C7) -/

theorem splitOnNl_ne_nil (s : List Char) : splitOnNl s ≠ [] := by
  cases s with
  | nil => simp [splitOnNl]
  | cons c cs =>
    simp only [splitOnNl]
    cases h : splitOnNl cs with
    | nil => simp
    | cons p ps =>
      by_cases hc : c = '\n' <;> simp [hc]

theorem joinNl_cons₂ (a b : List Char) (rest : List (List Char)) :
    joinNl (a :: b :: rest) = a ++ '\n' :: joinNl (b :: rest) := rfl

theorem joinNl_cons_ne (a : List Char) (rest : List (List Char)) (h : rest ≠ []) :
    joinNl (a :: rest) = a ++ '\n' :: joinNl rest := by
  cases rest with
  | nil => exact absurd rfl h
  | cons q qs => exact joinNl_cons₂ a q qs

theorem joinNl_splitOnNl (s : List Char) : joinNl (splitOnNl s) = s := by
  induction s with
  | nil => rfl
  | cons c cs ih =>
    cases h : splitOnNl cs with
    | nil => exact absurd h (splitOnNl_ne_nil cs)
    | cons p ps =>
      rw [h] at ih
      simp only [splitOnNl, h]
      by_cases hc : c = '\n'
      · subst hc
        rw [if_pos rfl, joinNl_cons₂, List.nil_append, ih]
      · rw [if_neg hc]
        cases ps with
        | nil =>
          show c :: p = c :: cs
          rw [show p = cs from ih]
        | cons q qs =>
          rw [joinNl_cons₂] at ih ⊢
          rw [List.cons_append, ih]

theorem splitLoop_ne_nil (n : Nat) (cur : List Char) (lines : List (List Char)) :
    splitLoop n cur lines ≠ [] := by
  induction lines generalizing cur with
  | nil => simp [splitLoop]
  | cons l ls ih =>
    simp only [splitLoop]
    by_cases h : cur.length + 1 + l.length ≤ n <;> simp [h, ih]

theorem joinNl_glue (a b : List Char) (rest : List (List Char)) :
    joinNl ((a ++ '\n' :: b) :: rest) = joinNl (a :: b :: rest) := by
  cases rest with
  | nil => simp [joinNl_cons₂, joinNl]
  | cons q qs => simp [joinNl_cons₂]

theorem splitLoop_join (n : Nat) (lines : List (List Char)) :
    ∀ cur : List Char, cur ≠ [] → (∀ l ∈ lines, l ≠ []) →
      joinNl (splitLoop n cur lines) = joinNl (cur :: lines) := by
  induction lines with
  | nil => intro cur _ _; rfl
  | cons l ls ih =>
    intro cur hcur hlines
    have hl : l ≠ [] := hlines l (by simp)
    have hls : ∀ x ∈ ls, x ≠ [] := fun x hx => hlines x (by simp [hx])
    simp only [splitLoop]
    by_cases h : cur.length + 1 + l.length ≤ n
    · simp only [if_pos h]
      have hpos : 0 < cur.length := List.length_pos.2 hcur
      have hjoin : joinCur cur l = cur ++ '\n' :: l := by
        simp [joinCur, hpos]
      have hne : joinCur cur l ≠ [] := by simp [hjoin]
      rw [ih (joinCur cur l) hne hls, hjoin, joinNl_glue]
    · simp only [if_neg h]
      rw [joinNl_cons_ne cur _ (splitLoop_ne_nil n l ls), ih l hl hls, joinNl_cons₂]

theorem splitLoop_bound (n : Nat) (pool : List (List Char)) (lines : List (List Char)) :
    ∀ cur : List Char, (cur.length ≤ n ∨ cur ∈ pool) → (∀ l ∈ lines, l ∈ pool) →
      ∀ p ∈ splitLoop n cur lines, p.length ≤ n ∨ p ∈ pool := by
  induction lines with
  | nil =>
    intro cur hcur _ p hp
    simp only [splitLoop, List.mem_singleton] at hp
    exact hp ▸ hcur
  | cons l ls ih =>
    intro cur hcur hlines p hp
    have hl : l ∈ pool := hlines l (by simp)
    have hls : ∀ x ∈ ls, x ∈ pool := fun x hx => hlines x (by simp [hx])
    simp only [splitLoop] at hp
    by_cases h : cur.length + 1 + l.length ≤ n
    · rw [if_pos h] at hp
      have hlen : (joinCur cur l).length ≤ n := by
        by_cases hc : cur.length > 0 <;> simp [joinCur, hc] <;> omega
      exact ih (joinCur cur l) (Or.inl hlen) hls p hp
    · rw [if_neg h] at hp
      rcases List.mem_cons.1 hp with rfl | hp2
      · exact hcur
      · exact ih l (Or.inr hl) hls p hp2

/-- Claim C7 counterexample: `splitText` applied to the single line "aa" with
`maxPartLen = 2` keeps the initial empty part, so rejoining the parts with
newlines does not reproduce the input. -/
theorem splitterRoundtripCex :
    splitTextGo ['a', 'a'] 2 = [[], ['a', 'a']] ∧
    joinNl (splitTextGo ['a', 'a'] 2) ≠ ['a', 'a'] := by
  constructor
  · rfl
  · decide

/-- Claim C7 (amended): every part returned by `splitText` has length at most
`maxPartLen` unless it is a single original line of the input that itself
exceeds the bound; and whenever no line of the input is empty and the first
line fits in the initial empty part, rejoining the parts with newlines
reproduces the input exactly. -/
theorem splitterAmended (t : List Char) (n : Nat) :
    (∀ p ∈ splitTextGo t n, p.length ≤ n ∨ (p ∈ splitOnNl t ∧ n < p.length)) ∧
    (noEmptyLines t → firstLineFits t n → joinNl (splitTextGo t n) = t) := by
  constructor
  · intro p hp
    have hb := splitLoop_bound n (splitOnNl t) (splitOnNl t) [] (Or.inl (by simp))
      (fun l hl => hl) p hp
    rcases hb with hb | hb
    · exact Or.inl hb
    · by_cases hlen : p.length ≤ n
      · exact Or.inl hlen
      · exact Or.inr ⟨hb, by omega⟩
  · intro hne hfit
    unfold splitTextGo
    cases h : splitOnNl t with
    | nil => exact absurd h (splitOnNl_ne_nil t)
    | cons l0 ls =>
      have hl0 : l0 ≠ [] := hne l0 (by rw [h]; simp)
      have hls : ∀ x ∈ ls, x ≠ [] := fun x hx => hne x (by rw [h]; simp [hx])
      have hfit2 : ([] : List Char).length + 1 + l0.length ≤ n := by
        unfold firstLineFits at hfit
        rw [h] at hfit
        simp only [List.headD_cons] at hfit
        simp only [List.length_nil]
        omega
      simp only [splitLoop, if_pos hfit2]
      have hjc : joinCur [] l0 = l0 := by simp [joinCur]
      rw [hjc, splitLoop_join n ls l0 hl0 hls, ← h, joinNl_splitOnNl]

/-- Witness for the amended claim C7 at the concrete input "ab\ncd". -/
theorem splitterAmendedWitness :
    noEmptyLines ['a', 'b', '\n', 'c', 'd'] ∧ firstLineFits ['a', 'b', '\n', 'c', 'd'] 5 ∧
    joinNl (splitTextGo ['a', 'b', '\n', 'c', 'd'] 5) = ['a', 'b', '\n', 'c', 'd'] :=
  ⟨by unfold noEmptyLines; decide, by unfold firstLineFits; decide,
    (splitterAmended ['a', 'b', '\n', 'c', 'd'] 5).2 (by unfold noEmptyLines; decide)
      (by unfold firstLineFits; decide)⟩

/-! ### Mention sanitization lemmas (claim C10) -/

theorem atOk_nil : atOk ([] : List Char) := by
  intro i hi
  simp at hi

theorem atOk_tail {c : Char} {l : List Char} (h : atOk (c :: l)) : atOk l := by
  intro i hi
  have := h (i + 1) (by simpa using hi)
  simpa using this

theorem atOk_cons {c : Char} {l : List Char} (h1 : c = '@' → l[0]? = some ' ')
    (h2 : atOk l) : atOk (c :: l) := by
  intro i hi
  cases i with
  | zero =>
    simp only [List.getElem?_cons_zero, Option.some_inj] at hi
    simpa using h1 hi
  | succ j =>
    simp only [List.getElem?_cons_succ] at hi ⊢
    exact h2 j hi

theorem atOk_append_cons {c : Char} {l1 l2 : List Char} (hc : c ≠ '@')
    (h1 : atOk l1) (h2 : atOk l2) : atOk (l1 ++ c :: l2) := by
  induction l1 with
  | nil =>
    exact atOk_cons (fun h => absurd h hc) h2
  | cons a l1 ih =>
    rw [List.cons_append]
    refine atOk_cons ?_ (ih (atOk_tail h1))
    intro ha
    have := h1 0 (by simpa using congrArg some ha)
    cases l1 with
    | nil => simp at this
    | cons x xs =>
      simp only [List.getElem?_cons_succ, List.getElem?_cons_zero] at this
      simpa using this

theorem atOk_of_append_cons {c : Char} {l1 l2 : List Char} (hc : c ≠ ' ')
    (h : atOk (l1 ++ c :: l2)) : atOk l1 ∧ atOk l2 := by
  induction l1 with
  | nil => exact ⟨atOk_nil, atOk_tail h⟩
  | cons a l1 ih =>
    rw [List.cons_append] at h
    obtain ⟨hl1, hl2⟩ := ih (atOk_tail h)
    refine ⟨atOk_cons ?_ hl1, hl2⟩
    intro ha
    have := h 0 (by simpa using congrArg some ha)
    simp only [List.getElem?_cons_succ, List.getElem?_cons_zero] at this
    cases l1 with
    | nil =>
      simp only [List.nil_append, List.getElem?_cons_zero, Option.some_inj] at this
      exact absurd this hc
    | cons x xs =>
      simpa using this

theorem sanitizeAt_atOk (s : List Char) : atOk (sanitizeAt s) := by
  induction s with
  | nil => exact atOk_nil
  | cons c cs ih =>
    simp only [sanitizeAt]
    by_cases hc : c = '@'
    · rw [if_pos hc]
      refine atOk_cons (fun _ => by simp) (atOk_cons ?_ ih)
      intro h
      simp at h
    · rw [if_neg hc]
      exact atOk_cons (fun h => absurd h hc) ih

theorem joinNl_atOk (L : List (List Char)) (h : atOk (joinNl L)) : ∀ l ∈ L, atOk l := by
  induction L with
  | nil => intro l hl; simp at hl
  | cons p ps ih =>
    intro l hl
    cases ps with
    | nil =>
      rcases List.mem_singleton.1 hl with rfl
      simpa [joinNl] using h
    | cons q qs =>
      rw [joinNl_cons₂] at h
      obtain ⟨hp, hrest⟩ := atOk_of_append_cons (by decide) h
      rcases List.mem_cons.1 hl with rfl | hl'
      · exact hp
      · exact ih hrest l hl'

theorem splitOnNl_atOk (s : List Char) (h : atOk s) : ∀ l ∈ splitOnNl s, atOk l :=
  joinNl_atOk (splitOnNl s) (by rwa [joinNl_splitOnNl])

theorem joinCur_atOk {cur l : List Char} (h1 : atOk cur) (h2 : atOk l) :
    atOk (joinCur cur l) := by
  unfold joinCur
  by_cases h : cur.length > 0
  · rw [if_pos h]
    exact atOk_append_cons (by decide) h1 h2
  · rw [if_neg h]
    have : cur = [] := List.length_eq_zero.1 (by omega)
    subst this
    simpa using h2

theorem splitLoop_atOk (n : Nat) (lines : List (List Char)) :
    ∀ cur : List Char, atOk cur → (∀ l ∈ lines, atOk l) →
      ∀ p ∈ splitLoop n cur lines, atOk p := by
  induction lines with
  | nil =>
    intro cur hcur _ p hp
    simp only [splitLoop, List.mem_singleton] at hp
    exact hp ▸ hcur
  | cons l ls ih =>
    intro cur hcur hlines p hp
    have hl : atOk l := hlines l (by simp)
    have hls : ∀ x ∈ ls, atOk x := fun x hx => hlines x (by simp [hx])
    simp only [splitLoop] at hp
    by_cases h : cur.length + 1 + l.length ≤ n
    · rw [if_pos h] at hp
      exact ih (joinCur cur l) (joinCur_atOk hcur hl) hls p hp
    · rw [if_neg h] at hp
      rcases List.mem_cons.1 hp with rfl | hp2
      · exact hcur
      · exact ih l hl hls p hp2

theorem postTexts_atOk (content : List Char) : ∀ x ∈ postTexts content, atOk x := by
  intro x hx
  unfold postTexts at hx
  by_cases h : (sanitizeAt content).length > 450
  · simp only [if_pos h] at hx
    exact splitLoop_atOk 450 (splitOnNl (sanitizeAt content)) [] atOk_nil
      (splitOnNl_atOk (sanitizeAt content) (sanitizeAt_atOk content)) x hx
  · simp only [if_neg h, List.mem_singleton] at hx
    exact hx ▸ sanitizeAt_atOk content

theorem mentionTailBound (acct x : List Char) (hx : atOk x) :
    ∀ i : Nat, ∀ c : Char, (acct ++ ' ' :: x)[i]? = some '@' →
      (acct ++ ' ' :: x)[i + 1]? = some c → c ≠ ' ' → i < acct.length := by
  induction acct with
  | nil =>
    intro i c h1 h2 hc
    exfalso
    cases i with
    | zero => simp at h1
    | succ j =>
      simp only [List.nil_append, List.getElem?_cons_succ] at h1 h2
      have := hx j h1
      rw [this] at h2
      exact hc (by simpa using h2.symm)
  | cons a as ih =>
    intro i c h1 h2 hc
    cases i with
    | zero => simp
    | succ j =>
      rw [List.cons_append] at h1 h2
      simp only [List.getElem?_cons_succ] at h1 h2
      have := ih j c h1 h2 hc
      simpa using Nat.succ_lt_succ this

/-- Claim C10: each posted body is the mention of the triggering status's
author followed by one chunk of the sanitized reply, and the only positions
where an at-sign is immediately followed by a non-space character lie inside
that leading mention. -/
theorem mentionSanitized (content acct : List Char) :
    ∀ b ∈ postedBodies content acct,
      (∃ x ∈ postTexts content, b = mentionBody acct x) ∧
      ∀ i : Nat, ∀ c : Char, b[i]? = some '@' → b[i + 1]? = some c → c ≠ ' ' →
        i < 1 + acct.length := by
  intro b hb
  obtain ⟨x, hx, rfl⟩ := List.mem_map.1 hb
  refine ⟨⟨x, hx, rfl⟩, ?_⟩
  have hatok : atOk x := postTexts_atOk content x hx
  intro i c h1 h2 hc
  cases i with
  | zero => simp
  | succ j =>
    unfold mentionBody at h1 h2
    simp only [List.getElem?_cons_succ] at h1 h2
    have := mentionTailBound acct x hatok j c h1 h2 hc
    omega

/-- Witness for claim C10 at the concrete reply "@hi" and author "me". -/
theorem mentionSanitizedWitness :
    mentionBody ['m', 'e'] (sanitizeAt ['@', 'h', 'i']) ∈
        postedBodies ['@', 'h', 'i'] ['m', 'e'] ∧
    ((∃ x ∈ postTexts ['@', 'h', 'i'],
        mentionBody ['m', 'e'] (sanitizeAt ['@', 'h', 'i']) = mentionBody ['m', 'e'] x) ∧
      ∀ i : Nat, ∀ c : Char,
        (mentionBody ['m', 'e'] (sanitizeAt ['@', 'h', 'i']))[i]? = some '@' →
        (mentionBody ['m', 'e'] (sanitizeAt ['@', 'h', 'i']))[i + 1]? = some c → c ≠ ' ' →
        i < 1 + (['m', 'e'] : List Char).length) :=
  ⟨by decide, mentionSanitized ['@', 'h', 'i'] ['m', 'e'] _ (by decide)⟩

/-! ### Reply pipeline ordering (claim C5) -/

theorem postTexts_ne_nil (content : List Char) : postTexts content ≠ [] := by
  unfold postTexts
  by_cases h : (sanitizeAt content).length > 450
  · simp only [if_pos h]
    exact splitLoop_ne_nil 450 [] (splitOnNl (sanitizeAt content))
  · simp [if_neg h]

theorem postLoop_tail (acct : List Char) (postIds : Nat → String) :
    ∀ ts : List (List Char), ∀ i : Nat, 1 ≤ i → ∀ rid : String,
      ∀ e ∈ postLoop acct postIds ts i rid,
        e.isPost = true ∨ e.isSaveOf "pseudo_message" = true := by
  intro ts
  induction ts with
  | nil => intro i _ rid e he; simp [postLoop] at he
  | cons t ts ih =>
    intro i hi rid e he
    simp only [postLoop, List.mem_cons] at he
    rcases he with rfl | he'
    · exact Or.inl rfl
    rcases he' with rfl | he2
    · right
      have : ¬ i = 0 := by omega
      simp [Ev.isSaveOf, this]
    · exact ih (i + 1) (by omega) (postIds i) e he2

/-- Claim C5 counterexample: in the success trace of `ReplyAndPost` on the
short reply "hi", the first `PostStatus` call (index 1) happens before the
model's reply message is persisted (`ai_response` save at index 2), so the
claim that no post occurs before both persistence steps is false. -/
theorem persistBeforePostCex :
    (replyAndPostEvents ['h', 'i'] ['u'] ("s0") (fun _ => ("p0")))[1]?.map Ev.isPost =
      some true ∧
    (replyAndPostEvents ['h', 'i'] ['u'] ("s0") (fun _ => ("p0")))[2]?.map
        (Ev.isSaveOf "ai_response") = some true ∧
    (1 : Nat) < 2 := by
  refine ⟨?_, ?_, by omega⟩ <;> decide

/-- Claim C5 (amended): the user's message is persisted before any chunk is
posted, and the model's reply message is persisted immediately after the
first chunk is posted and before any further chunk; every later event is a
post or a pseudo-message save. -/
theorem replyPersistOrder (content acct : List Char) (sid : String) (postIds : Nat → String) :
    ∃ b : List Char, ∃ rest : List Ev,
      replyAndPostEvents content acct sid postIds =
        Ev.saveMsg "user_status" (some sid) :: Ev.postStatus b sid ::
          Ev.saveMsg "ai_response" (some (postIds 0)) :: rest ∧
      ∀ e ∈ rest, e.isPost = true ∨ e.isSaveOf "pseudo_message" = true := by
  cases h : postTexts content with
  | nil => exact absurd h (postTexts_ne_nil content)
  | cons t ts =>
    refine ⟨mentionBody acct t, postLoop acct postIds ts 1 (postIds 0), ?_, ?_⟩
    · unfold replyAndPostEvents
      rw [h]
      simp [postLoop]
    · exact postLoop_tail acct postIds ts 1 (by omega) (postIds 0)

/-- Witness for the amended claim C5 at a concrete short reply. -/
theorem replyPersistOrderWitness :
    ∃ b : List Char, ∃ rest : List Ev,
      replyAndPostEvents ['o', 'k'] ['u'] ("s1") (fun _ => ("p1")) =
        Ev.saveMsg "user_status" (some ("s1")) :: Ev.postStatus b ("s1") ::
          Ev.saveMsg "ai_response" (some ("p1")) :: rest ∧
      ∀ e ∈ rest, e.isPost = true ∨ e.isSaveOf "pseudo_message" = true :=
  replyPersistOrder ['o', 'k'] ['u'] ("s1") (fun _ => ("p1"))

/-! ### Cursor lemmas (claim C6) -/

theorem goStrLt_irrefl : ∀ a : List Char, goStrLt a a = false := by
  intro a
  induction a with
  | nil => rfl
  | cons x xs ih => simp [goStrLt, ih]

theorem goStrLt_trans : ∀ a b c : List Char,
    goStrLt a b = true → goStrLt b c = true → goStrLt a c = true := by
  intro a
  induction a with
  | nil =>
    intro b c h1 h2
    cases b with
    | nil => simp [goStrLt] at h1
    | cons y ys =>
      cases c with
      | nil => simp [goStrLt] at h2
      | cons z zs => rfl
  | cons x xs ih =>
    intro b c h1 h2
    cases b with
    | nil => simp [goStrLt] at h1
    | cons y ys =>
      cases c with
      | nil => simp [goStrLt] at h2
      | cons z zs =>
        simp only [goStrLt] at h1 h2 ⊢
        by_cases hxy : x.toNat < y.toNat
        · rw [if_pos hxy] at h1
          by_cases hyz : y.toNat < z.toNat
          · rw [if_pos (show x.toNat < z.toNat by omega)]
          · rw [if_neg hyz] at h2
            by_cases hzy : z.toNat < y.toNat
            · rw [if_pos hzy] at h2
              exact absurd h2 (by simp)
            · rw [if_pos (show x.toNat < z.toNat by omega)]
        · rw [if_neg hxy] at h1
          by_cases hyx : y.toNat < x.toNat
          · rw [if_pos hyx] at h1
            exact absurd h1 (by simp)
          · rw [if_neg hyx] at h1
            by_cases hyz : y.toNat < z.toNat
            · rw [if_pos (show x.toNat < z.toNat by omega)]
            · rw [if_neg hyz] at h2
              by_cases hzy : z.toNat < y.toNat
              · rw [if_pos hzy] at h2
                exact absurd h2 (by simp)
              · rw [if_neg hzy] at h2
                rw [if_neg (show ¬ x.toNat < z.toNat by omega),
                  if_neg (show ¬ z.toNat < x.toNat by omega)]
                exact ih ys zs h1 h2

theorem goStrLt_connex : ∀ a b : List Char,
    goStrLt a b = false → goStrLt b a = false → a = b := by
  intro a
  induction a with
  | nil =>
    intro b h1 _
    cases b with
    | nil => rfl
    | cons y ys => simp [goStrLt] at h1
  | cons x xs ih =>
    intro b h1 h2
    cases b with
    | nil => simp [goStrLt] at h2
    | cons y ys =>
      simp only [goStrLt] at h1 h2
      by_cases hxy : x.toNat < y.toNat
      · rw [if_pos hxy] at h1
        exact absurd h1 (by simp)
      · by_cases hyx : y.toNat < x.toNat
        · rw [if_pos hyx] at h2
          exact absurd h2 (by simp)
        · rw [if_neg hxy, if_neg hyx] at h1
          rw [if_neg hyx, if_neg hxy] at h2
          have hx : x = y := Char.ext (UInt32.ext (show x.toNat = y.toNat by omega))
          rw [hx, ih ys h1 h2]

theorem goStrLt_asymm {a b : List Char} (h : goStrLt a b = true) : goStrLt b a = false := by
  by_contra hc
  have hba : goStrLt b a = true := by
    cases hh : goStrLt b a
    · exact absurd hh hc
    · rfl
  have := goStrLt_trans a b a h hba
  rw [goStrLt_irrefl] at this
  exact absurd this (by simp)

theorem goStrGe_trans : ∀ a b c : List Char,
    goStrLt a b = false → goStrLt b c = false → goStrLt a c = false := by
  intro a
  induction a with
  | nil =>
    intro b c h1 h2
    cases b with
    | cons y ys => simp [goStrLt] at h1
    | nil =>
      cases c with
      | cons z zs => simp [goStrLt] at h2
      | nil => rfl
  | cons x xs ih =>
    intro b c h1 h2
    cases b with
    | nil =>
      cases c with
      | cons z zs => simp [goStrLt] at h2
      | nil => rfl
    | cons y ys =>
      cases c with
      | nil => rfl
      | cons z zs =>
        simp only [goStrLt] at h1 h2 ⊢
        by_cases hxy : x.toNat < y.toNat
        · rw [if_pos hxy] at h1
          exact absurd h1 (by simp)
        · rw [if_neg hxy] at h1
          by_cases hyz : y.toNat < z.toNat
          · rw [if_pos hyz] at h2
            exact absurd h2 (by simp)
          · rw [if_neg hyz] at h2
            rw [if_neg (show ¬ x.toNat < z.toNat by omega)]
            by_cases hzx : z.toNat < x.toNat
            · rw [if_pos hzx]
            · rw [if_neg hzx]
              rw [if_neg (show ¬ y.toNat < x.toNat by omega)] at h1
              rw [if_neg (show ¬ z.toNat < y.toNat by omega)] at h2
              exact ih ys zs h1 h2

theorem goStrMax_ge_left (c r : List Char) : goStrLt (goStrMax c r) c = false := by
  unfold goStrMax
  by_cases h : goStrLt c r = true
  · rw [if_pos h]
    exact goStrLt_asymm h
  · simp only [h, if_false]
    exact goStrLt_irrefl c

theorem goStrMax_ge_right (c r : List Char) : goStrLt (goStrMax c r) r = false := by
  unfold goStrMax
  by_cases h : goStrLt c r = true
  · rw [if_pos h]
    exact goStrLt_irrefl r
  · simp only [h, if_false]
    cases hh : goStrLt c r
    · exact hh
    · exact absurd hh h

theorem goStrMax_cases (c r : List Char) : goStrMax c r = c ∨ goStrMax c r = r := by
  unfold goStrMax
  by_cases h : goStrLt c r = true <;> simp [h]

theorem goStrLt_false_of_not {a b : List Char} (h : ¬ goStrLt a b = true) :
    goStrLt a b = false := by
  cases hh : goStrLt a b
  · rfl
  · exact absurd hh h

theorem goStrMax_comm3 (c a b : List Char) :
    goStrMax (goStrMax c a) b = goStrMax (goStrMax c b) a := by
  unfold goStrMax
  cases hca : goStrLt c a <;> cases hcb : goStrLt c b <;>
    simp only [hca, hcb, Bool.false_eq_true, if_false, if_true]
  case false.true =>
    have hba : goStrLt b a = false := by
      cases hh : goStrLt b a
      · rfl
      · exact absurd (goStrLt_trans c b a hcb hh) (by rw [hca]; simp)
    rw [hba]
    simp
  case true.false =>
    have hab : goStrLt a b = false := by
      cases hh : goStrLt a b
      · rfl
      · exact absurd (goStrLt_trans c a b hca hh) (by rw [hcb]; simp)
    rw [hab]
    simp
  case true.true =>
    cases hab : goStrLt a b
    · cases hba : goStrLt b a
      · rw [goStrLt_connex a b hab hba]
      · simp [hab, hba]
    · rw [goStrLt_asymm hab]
      simp [hab]

theorem runCursor_spec (ok : List Char → Bool) : ∀ rs : List (List Char), ∀ c : List Char,
    (runCursor c ok rs = c ∨ ∃ r ∈ rs, ok r = true ∧ runCursor c ok rs = r) ∧
    goStrLt (runCursor c ok rs) c = false ∧
    (∀ r ∈ rs, ok r = true → goStrLt (runCursor c ok rs) r = false) := by
  intro rs
  induction rs with
  | nil =>
    intro c
    exact ⟨Or.inl rfl, goStrLt_irrefl c, by simp⟩
  | cons r rs ih =>
    intro c
    simp only [runCursor]
    cases hok : ok r
    · simp only [Bool.false_eq_true, if_false]
      obtain ⟨h1, h2, h3⟩ := ih c
      refine ⟨?_, h2, ?_⟩
      · rcases h1 with h1 | ⟨r2, hr2, hok2, he⟩
        · exact Or.inl h1
        · exact Or.inr ⟨r2, by simp [hr2], hok2, he⟩
      · intro r2 hr2 hok2
        rcases List.mem_cons.1 hr2 with rfl | hr2
        · rw [hok] at hok2
          exact absurd hok2 (by simp)
        · exact h3 r2 hr2 hok2
    · rw [if_pos rfl]
      obtain ⟨h1, h2, h3⟩ := ih (goStrMax c r)
      refine ⟨?_, ?_, ?_⟩
      · rcases h1 with h1 | ⟨r2, hr2, hok2, he⟩
        · rcases goStrMax_cases c r with hm | hm
          · exact Or.inl (by rw [h1, hm])
          · exact Or.inr ⟨r, by simp, hok, by rw [h1, hm]⟩
        · exact Or.inr ⟨r2, by simp [hr2], hok2, he⟩
      · exact goStrGe_trans _ _ _ h2 (goStrMax_ge_left c r)
      · intro r2 hr2 hok2
        rcases List.mem_cons.1 hr2 with rfl | hr2
        · exact goStrGe_trans _ _ _ h2 (goStrMax_ge_right c r2)
        · exact h3 r2 hr2 hok2

theorem if_true_eq {α : Sort _} (a b : α) : (if true = true then a else b) = a :=
  if_pos rfl

theorem if_false_eq {α : Sort _} (a b : α) : (if false = true then a else b) = b :=
  if_neg (by simp)

theorem runCursor_perm (ok : List Char → Bool) {l1 l2 : List (List Char)} (h : l1.Perm l2) :
    ∀ c : List Char, runCursor c ok l1 = runCursor c ok l2 := by
  induction h with
  | nil => intro _; rfl
  | cons x _ ih =>
    intro c
    simp only [runCursor]
    cases hok : ok x <;> simp only [if_true_eq, if_false_eq] <;> exact ih _
  | swap x y l =>
    intro c
    simp only [runCursor]
    cases hx : ok x <;> cases hy : ok y <;> simp [goStrMax_comm3]
  | trans _ _ ih1 ih2 =>
    intro c
    rw [ih1 c, ih2 c]

/-- Claim C6 counterexample: with prior cursor "" and the successfully handled
batch ["9", "10"], `Run` persists "9" (Go string comparison says "10" < "9"),
while the claimed numeric maximum is 10; moreover a notification whose
handling fails advances nothing, while the claim counts every attempted id. -/
theorem cursorNumericCex :
    runCursor [] (fun _ => true) [['9'], ['1', '0']] = ['9'] ∧
    digitsToNat (runCursor [] (fun _ => true) [['9'], ['1', '0']]) ≠
      claimNumericCursor [] [['9'], ['1', '0']] ∧
    runCursor [] (fun _ => false) [['9']] = [] := by
  exact ⟨by decide, by decide, by decide⟩

/-- Claim C6 (amended): after `Run` processes a batch, the persisted cursor is
the maximum under Go string comparison of the prior cursor and the ids of the
successfully handled notifications (failed ones advance nothing): it is one
of those values, it is string-greater-or-equal to all of them, and it does
not depend on the processing order of the batch. -/
theorem cursorStringMax (init : List Char) (ok : List Char → Bool)
    (replies : List (List Char)) :
    (runCursor init ok replies = init ∨
      ∃ r ∈ replies, ok r = true ∧ runCursor init ok replies = r) ∧
    goStrLt (runCursor init ok replies) init = false ∧
    (∀ r ∈ replies, ok r = true → goStrLt (runCursor init ok replies) r = false) ∧
    (∀ replies2 : List (List Char), replies2.Perm replies →
      runCursor init ok replies2 = runCursor init ok replies) := by
  obtain ⟨h1, h2, h3⟩ := runCursor_spec ok replies init
  exact ⟨h1, h2, h3, fun l2 hp => runCursor_perm ok hp init⟩

/-! ### Tool-loop lemmas (claim C8) -/

theorem chatTsAux_ok (rs : Nat → Except String LlmResp) :
    ∀ fuel i r k, chatTsAux rs i fuel = .ok (r, k) → k ≤ i + fuel ∧ r.toolCalls = [] := by
  intro fuel
  induction fuel with
  | zero =>
    intro i r k h
    simp [chatTsAux] at h
  | succ fuel ih =>
    intro i r k h
    cases hrs : rs i with
    | error e =>
      simp only [chatTsAux, hrs] at h
      simp at h
    | ok r0 =>
      simp only [chatTsAux, hrs] at h
      by_cases he : r0.toolCalls.isEmpty
      · rw [if_pos (by rw [he])] at h
        obtain ⟨rfl, rfl⟩ : r0 = r ∧ i + 1 = k := by
          simpa [Prod.ext_iff] using h
        exact ⟨by omega, List.isEmpty_iff.1 he⟩
      · rw [if_neg he] at h
        obtain ⟨h1, h2⟩ := ih (i + 1) r k h
        exact ⟨by omega, h2⟩

theorem chatTsAux_exhaust (rs : Nat → Except String LlmResp) :
    ∀ fuel i, (∀ j, i ≤ j → j < i + fuel → pendingTools (rs j) = true) →
      ∃ e, chatTsAux rs i fuel = .error e := by
  intro fuel
  induction fuel with
  | zero =>
    intro i _
    exact ⟨_, rfl⟩
  | succ fuel ih =>
    intro i hp
    have hpi : pendingTools (rs i) = true := hp i (by omega) (by omega)
    cases hrs : rs i with
    | error e => rw [hrs] at hpi; simp [pendingTools] at hpi
    | ok r0 =>
      rw [hrs] at hpi
      simp only [pendingTools, Bool.not_eq_true'] at hpi
      simp only [chatTsAux, hrs]
      rw [if_neg (by simp [hpi])]
      exact ih (i + 1) (fun j h1 h2 => hp j (by omega) (by omega))

theorem chatTsAux_skip (rs : Nat → Except String LlmResp) :
    ∀ d i, (∀ j, i ≤ j → j < i + d → pendingTools (rs j) = true) →
      ∀ rest, chatTsAux rs i (d + rest) = chatTsAux rs (i + d) rest := by
  intro d
  induction d with
  | zero =>
    intro i _ rest
    simp
  | succ d ih =>
    intro i hp rest
    have hpi : pendingTools (rs i) = true := hp i (by omega) (by omega)
    have hstep : d + 1 + rest = (d + rest) + 1 := by omega
    rw [hstep]
    cases hrs : rs i with
    | error e => rw [hrs] at hpi; simp [pendingTools] at hpi
    | ok r0 =>
      rw [hrs] at hpi
      simp only [pendingTools, Bool.not_eq_true'] at hpi
      simp only [chatTsAux, hrs]
      rw [if_neg (by simp [hpi])]
      rw [ih (i + 1) (fun j h1 h2 => hp j (by omega) (by omega)) rest]
      congr 1
      omega

theorem chatGoAux_count (rs : Nat → Except String LlmResp) :
    ∀ fuel r k r2 k2, chatGoAux rs r k fuel = .ok (r2, k2) → k2 ≤ k + fuel := by
  intro fuel
  induction fuel with
  | zero =>
    intro r k r2 k2 h
    obtain ⟨-, rfl⟩ : r = r2 ∧ k = k2 := by
      simpa [chatGoAux, Prod.ext_iff] using h
    omega
  | succ fuel ih =>
    intro r k r2 k2 h
    simp only [chatGoAux] at h
    by_cases he : r.toolCalls.isEmpty
    · rw [if_pos (by rw [he])] at h
      obtain ⟨-, rfl⟩ : r = r2 ∧ k = k2 := by
        simpa [Prod.ext_iff] using h
      omega
    · rw [if_neg he] at h
      cases hrs : rs k with
      | error e => simp only [hrs] at h; simp at h
      | ok r2' =>
        simp only [hrs] at h
        have := ih r2' (k + 1) r2 k2 h
        omega

theorem chatGoAux_exhaust (rs : Nat → Except String LlmResp) :
    ∀ fuel r k, r.toolCalls ≠ [] → (∀ j, k ≤ j → j < k + fuel → pendingTools (rs j) = true) →
      ∃ r2, chatGoAux rs r k fuel = .ok (r2, k + fuel) ∧ r2.toolCalls ≠ [] := by
  intro fuel
  induction fuel with
  | zero =>
    intro r k hr _
    exact ⟨r, rfl, hr⟩
  | succ fuel ih =>
    intro r k hr hp
    have hpk : pendingTools (rs k) = true := hp k (by omega) (by omega)
    cases hrs : rs k with
    | error e => rw [hrs] at hpk; simp [pendingTools] at hpk
    | ok r2' =>
      rw [hrs] at hpk
      simp only [pendingTools, Bool.not_eq_true'] at hpk
      have hr2 : r2'.toolCalls ≠ [] := by
        intro hc
        rw [List.isEmpty_iff.2 hc] at hpk
        exact absurd hpk (by simp)
      simp only [chatGoAux, hrs]
      rw [if_neg (by simp [hr])]
      obtain ⟨r3, he, hne⟩ := ih r2' (k + 1) hr2 (fun j h1 h2 => hp j (by omega) (by omega))
      refine ⟨r3, ?_, hne⟩
      rw [show k + (fuel + 1) = (k + 1) + fuel by omega]
      exact he

/-- Claim C8 counterexample: with a model that requests a tool call on every
invocation, the Go service's chat operation (`TeobotService.Chat`,
internal/service) returns a normal, non-error response after exhausting the
iteration bound — the final message still carrying pending tool calls — so
the claim that exceeding the bound fails with an error is false for the Go
implementation driving the reply pipeline. -/
theorem toolLoopGoNoErrorCex :
    chatGo (fun _ => .ok { content := "c", toolCalls := ["t"] }) =
      .ok ({ content := "c", toolCalls := ["t"] }, 11) ∧
    ({ content := "c", toolCalls := ["t"] } : LlmResp).toolCalls ≠ [] := by
  exact ⟨rfl, by simp⟩

/-- Claim C8 (amended): the TypeScript chat operation makes at most 10 model
invocations, returns the first response carrying no tool calls, and throws
when all 10 responses request tools; the Go service's chat operation makes at
most 11 model invocations (initial call plus 10 loop iterations) and, when
tool calls persist through the bound, returns the last response without
error, its tool calls still pending. -/
theorem toolLoopAmended :
    (∀ rs : Nat → Except String LlmResp, ∀ r k, chatTs rs = .ok (r, k) →
      k ≤ 10 ∧ r.toolCalls = []) ∧
    (∀ rs : Nat → Except String LlmResp, (∀ i, i < 10 → pendingTools (rs i) = true) →
      ∃ e, chatTs rs = .error e) ∧
    (∀ rs : Nat → Except String LlmResp, ∀ r, ∀ i, i < 10 →
      (∀ j, j < i → pendingTools (rs j) = true) → rs i = .ok r → r.toolCalls = [] →
      chatTs rs = .ok (r, i + 1)) ∧
    (∀ rs : Nat → Except String LlmResp, ∀ r k, chatGo rs = .ok (r, k) → k ≤ 11) ∧
    (∀ rs : Nat → Except String LlmResp, (∀ i, i < 11 → pendingTools (rs i) = true) →
      ∃ r, chatGo rs = .ok (r, 11) ∧ r.toolCalls ≠ []) := by
  refine ⟨?_, ?_, ?_, ?_, ?_⟩
  · intro rs r k h
    obtain ⟨h1, h2⟩ := chatTsAux_ok rs 10 0 r k h
    exact ⟨by omega, h2⟩
  · intro rs hp
    exact chatTsAux_exhaust rs 10 0 (fun j h1 h2 => hp j (by omega))
  · intro rs r i hi hp hrs hempty
    have hsplit : (10 : Nat) = i + (10 - i) := by omega
    unfold chatTs
    rw [hsplit, chatTsAux_skip rs i 0 (fun j h1 h2 => hp j (by omega)) (10 - i)]
    have hrest : 10 - i = (10 - i - 1) + 1 := by omega
    rw [Nat.zero_add, hrest]
    simp only [chatTsAux, hrs]
    rw [if_pos (by simp [hempty])]
  · intro rs r k h
    unfold chatGo at h
    cases hrs : rs 0 with
    | error e => simp only [hrs] at h; simp at h
    | ok r0 =>
      simp only [hrs] at h
      by_cases he : r0.toolCalls.isEmpty
      · rw [if_pos he] at h
        obtain ⟨-, rfl⟩ : r0 = r ∧ 1 = k := by
          simpa [Prod.ext_iff] using h
        omega
      · rw [if_neg he] at h
        have := chatGoAux_count rs 10 r0 1 r k h
        omega
  · intro rs hp
    have hp0 : pendingTools (rs 0) = true := hp 0 (by omega)
    cases hrs : rs 0 with
    | error e => rw [hrs] at hp0; simp [pendingTools] at hp0
    | ok r0 =>
      rw [hrs] at hp0
      simp only [pendingTools, Bool.not_eq_true'] at hp0
      have hr0 : r0.toolCalls ≠ [] := by
        intro hc
        rw [List.isEmpty_iff.2 hc] at hp0
        exact absurd hp0 (by simp)
      simp only [chatGo, hrs]
      rw [if_neg (by simp [hr0])]
      obtain ⟨r2, he, hne⟩ := chatGoAux_exhaust rs 10 r0 1 hr0
        (fun j h1 h2 => hp j (by omega))
      exact ⟨r2, by rw [he], hne⟩

/-- Witness for the amended claim C8: a model that requests tools twice and
then answers cleanly terminates at the third invocation. -/
theorem toolLoopAmendedWitness :
    chatTs (fun i => if i < 2 then .ok { content := "c", toolCalls := ["t"] }
      else .ok { content := "d", toolCalls := [] }) =
      .ok ({ content := "d", toolCalls := [] }, 3) :=
  toolLoopAmended.2.2.1 _ _ 2 (by omega) (by decide) (by rfl) (by rfl)

/-! ### Clone lemmas (claim C2) -/

theorem insertRelsUpTo_app (newT : ThreadId) (mid : MsgId) (fail : ThreadRel → Bool) :
    ∀ pre : List ThreadRel, ∀ rk : ThreadRel, ∀ post : List ThreadRel,
      rk.chatgptMessageId = mid → (∀ r ∈ pre, r.chatgptMessageId ≠ mid) →
      insertRelsUpTo newT mid fail (pre ++ rk :: post) =
        if ∃ r ∈ pre ++ [rk], fail r = true then none
        else some ((pre ++ [rk]).map (fun r =>
          { threadId := newT, chatgptMessageId := r.chatgptMessageId,
            sequenceNum := r.sequenceNum })) := by
  intro pre
  induction pre with
  | nil =>
    intro rk post hrk _
    simp only [List.nil_append, insertRelsUpTo]
    by_cases hf : fail rk = true
    · rw [if_pos hf, if_pos (by exact ⟨rk, by simp, hf⟩)]
    · rw [if_neg hf, if_pos (by simp [hrk]), if_neg (by simp [hf])]
      simp
  | cons a pre ih =>
    intro rk post hrk hpre
    have ha : a.chatgptMessageId ≠ mid := hpre a (by simp)
    have hpre2 : ∀ r ∈ pre, r.chatgptMessageId ≠ mid := fun r hr => hpre r (by simp [hr])
    simp only [List.cons_append, insertRelsUpTo, List.append_eq]
    by_cases hf : fail a = true
    · rw [if_pos hf, if_pos ⟨a, by simp, hf⟩]
    · rw [if_neg hf]
      rw [if_neg (show ¬ (a.chatgptMessageId == mid) = true by simp [ha])]
      rw [ih rk post hrk hpre2]
      by_cases hex : ∃ r ∈ pre ++ [rk], fail r = true
      · obtain ⟨r, hr, hfr⟩ := hex
        rw [if_pos ⟨r, hr, hfr⟩, if_pos ⟨r, List.mem_cons_of_mem a hr, hfr⟩]
        rfl
      · rw [if_neg hex, if_neg (by
          rintro ⟨r, hr, hfr⟩
          rcases List.mem_cons.1 hr with rfl | hr2
          · exact absurd hfr (by simp [hf])
          · exact hex ⟨r, hr2, hfr⟩)]
        simp

/-- Claim C2: cloning a thread at a cutoff message copies exactly the rows up
to and including the cutoff into the fresh thread, preserving sequence
numbers; the source thread's rows and all message rows are untouched; and on
any insertion failure no rel row of the new thread is committed (the fresh,
empty thread row itself is committed outside the transaction). -/
theorem forkCloneIsolation (db : Db) (freshT A : ThreadId) (mid : MsgId)
    (fail : ThreadRel → Bool) (pre post : List ThreadRel) (rk : ThreadRel)
    (hbase : ∀ r ∈ pre ++ rk :: post, r.threadId = A)
    (hrk : rk.chatgptMessageId = mid)
    (hpre : ∀ r ∈ pre, r.chatgptMessageId ≠ mid)
    (hAne : freshT ≠ A)
    (hfresh : relsOfThread db freshT = []) :
    (cloneThread freshT (pre ++ rk :: post) mid fail db).2.messages = db.messages ∧
    (cloneThread freshT (pre ++ rk :: post) mid fail db).2.threads = db.threads ++ [freshT] ∧
    relsOfThread (cloneThread freshT (pre ++ rk :: post) mid fail db).2 A =
      relsOfThread db A ∧
    ((∀ r ∈ pre ++ [rk], fail r = false) →
      (cloneThread freshT (pre ++ rk :: post) mid fail db).1 = some freshT ∧
      relsOfThread (cloneThread freshT (pre ++ rk :: post) mid fail db).2 freshT =
        (pre ++ [rk]).map (fun r =>
          { threadId := freshT, chatgptMessageId := r.chatgptMessageId,
            sequenceNum := r.sequenceNum })) ∧
    ((∃ r ∈ pre ++ [rk], fail r = true) →
      (cloneThread freshT (pre ++ rk :: post) mid fail db).1 = none ∧
      relsOfThread (cloneThread freshT (pre ++ rk :: post) mid fail db).2 freshT = []) := by
  have happ := insertRelsUpTo_app freshT mid fail pre rk post hrk hpre
  by_cases hex : ∃ r ∈ pre ++ [rk], fail r = true
  · rw [if_pos hex] at happ
    unfold cloneThread
    rw [happ]
    refine ⟨rfl, rfl, rfl, ?_, ?_⟩
    · intro hall
      obtain ⟨r, hr, hfr⟩ := hex
      rw [hall r hr] at hfr
      exact absurd hfr (by simp)
    · intro _
      exact ⟨rfl, hfresh⟩
  · rw [if_neg hex] at happ
    unfold cloneThread
    rw [happ]
    have hnewA : ((pre ++ [rk]).map (fun r =>
        ({ threadId := freshT, chatgptMessageId := r.chatgptMessageId,
           sequenceNum := r.sequenceNum } : ThreadRel))).filter
        (fun r => r.threadId == A) = [] := by
      refine List.filter_eq_nil_iff.2 ?_
      intro r hr
      obtain ⟨r0, _, rfl⟩ := List.mem_map.1 hr
      simpa using hAne
    have hnewF : ((pre ++ [rk]).map (fun r =>
        ({ threadId := freshT, chatgptMessageId := r.chatgptMessageId,
           sequenceNum := r.sequenceNum } : ThreadRel))).filter
        (fun r => r.threadId == freshT) =
        (pre ++ [rk]).map (fun r =>
          ({ threadId := freshT, chatgptMessageId := r.chatgptMessageId,
             sequenceNum := r.sequenceNum } : ThreadRel)) := by
      refine List.filter_eq_self.2 ?_
      intro r hr
      obtain ⟨r0, _, rfl⟩ := List.mem_map.1 hr
      simp
    refine ⟨rfl, rfl, ?_, ?_, ?_⟩
    · show (db.rels ++ _).filter (fun r => r.threadId == A) = relsOfThread db A
      rw [List.filter_append, hnewA, List.append_nil]
      rfl
    · intro _
      refine ⟨rfl, ?_⟩
      show (db.rels ++ _).filter (fun r => r.threadId == freshT) = _
      unfold relsOfThread at hfresh
      rw [List.filter_append, hfresh, List.nil_append, hnewF]
    · intro hex2
      exact absurd hex2 hex

/-- Witness for claim C2 on a three-row thread cloned at its second message. -/
theorem forkCloneIsolationWitness :
    (cloneThread 9
      ([({ threadId := 7, chatgptMessageId := 1, sequenceNum := 1 } : ThreadRel)] ++
        ({ threadId := 7, chatgptMessageId := 2, sequenceNum := 2 } : ThreadRel) ::
        [({ threadId := 7, chatgptMessageId := 3, sequenceNum := 3 } : ThreadRel)])
      2 (fun _ => false)
      { messages := [], threads := [7],
        rels := [{ threadId := 7, chatgptMessageId := 1, sequenceNum := 1 },
          { threadId := 7, chatgptMessageId := 2, sequenceNum := 2 },
          { threadId := 7, chatgptMessageId := 3, sequenceNum := 3 }] }).1 = some 9 :=
  ((forkCloneIsolation
      { messages := [], threads := [7],
        rels := [{ threadId := 7, chatgptMessageId := 1, sequenceNum := 1 },
          { threadId := 7, chatgptMessageId := 2, sequenceNum := 2 },
          { threadId := 7, chatgptMessageId := 3, sequenceNum := 3 }] }
      9 7 2 (fun _ => false)
      [({ threadId := 7, chatgptMessageId := 1, sequenceNum := 1 } : ThreadRel)]
      [({ threadId := 7, chatgptMessageId := 3, sequenceNum := 3 } : ThreadRel)]
      ({ threadId := 7, chatgptMessageId := 2, sequenceNum := 2 } : ThreadRel)
      (by decide) (by decide) (by decide) (by decide) (by decide)).2.2.2.1
    (by decide)).1

/-! ### Reconciliation lemmas (claims C3 and C9) -/

theorem enumFrom_fst_bounds {α : Type _} :
    ∀ (l : List α) (k : Nat), ∀ p ∈ List.enumFrom k l,
      k ≤ p.1 ∧ p.1 < k + l.length ∧ p.2 ∈ l := by
  intro l
  induction l with
  | nil => intro k p hp; simp [List.enumFrom] at hp
  | cons x xs ih =>
    intro k p hp
    rcases List.mem_cons.1 hp with rfl | hp2
    · exact ⟨le_refl _, by simp, by simp⟩
    · obtain ⟨h1, h2, h3⟩ := ih (k + 1) p hp2
      exact ⟨by omega, by simp; omega, by simp [h3]⟩

theorem enumFrom_pairwise_fst {α : Type _} :
    ∀ (l : List α) (k : Nat),
      List.Pairwise (fun a b : Nat × α => a.1 < b.1) (List.enumFrom k l) := by
  intro l
  induction l with
  | nil => intro k; simp [List.enumFrom]
  | cons x xs ih =>
    intro k
    refine List.Pairwise.cons ?_ (ih (k + 1))
    intro q hq
    have := (enumFrom_fst_bounds xs (k + 1) q hq).1
    omega

theorem enumFrom_map_comp_snd {α β : Type _} (h : α → β) :
    ∀ (l : List α) (k : Nat), (List.enumFrom k l).map (fun p => h p.2) = l.map h := by
  intro l
  induction l with
  | nil => intro k; rfl
  | cons x xs ih => intro k; simp [List.enumFrom, ih]

theorem enumFrom_map_comp_fst {α β : Type _} (g : Nat → β) :
    ∀ (l : List α) (k : Nat),
      (List.enumFrom k l).map (fun p => g p.1) = (List.range' k l.length).map g := by
  intro l
  induction l with
  | nil => intro k; rfl
  | cons x xs ih => intro k; simp [List.enumFrom, List.range', ih]

theorem find?_append_none {α : Type _} (p : α → Bool) :
    ∀ l1 l2 : List α, (∀ x ∈ l1, p x = false) → (l1 ++ l2).find? p = l2.find? p := by
  intro l1
  induction l1 with
  | nil => intro l2 _; rfl
  | cons x xs ih =>
    intro l2 hx
    rw [List.cons_append, List.find?_cons, hx x (by simp)]
    exact ih l2 (fun y hy => hx y (by simp [hy]))

theorem find?_by_id :
    ∀ msgs : List MessageRow, (msgs.map (fun m => m.id)).Nodup →
      ∀ r ∈ msgs, msgs.find? (fun m => m.id == r.id) = some r := by
  intro msgs
  induction msgs with
  | nil => intro _ r hr; simp at hr
  | cons a l ih =>
    intro hnd r hr
    rcases List.mem_cons.1 hr with rfl | hr2
    · rw [List.find?_cons]
      simp
    · have hne : a.id ≠ r.id := by
        intro hc
        have : a.id ∈ l.map (fun m => m.id) := hc ▸ List.mem_map_of_mem _ hr2
        exact (List.nodup_cons.1 (by simpa using hnd)).1 this
      rw [List.find?_cons, show (a.id == r.id) = false by simp [hne]]
      exact ih (List.nodup_cons.1 (by simpa using hnd)).2 r hr2

theorem filterMap_eq_map_of_some {α β : Type _} {F : α → Option β} {G : α → β} :
    ∀ l : List α, (∀ x ∈ l, F x = some (G x)) → l.filterMap F = l.map G := by
  intro l
  induction l with
  | nil => intro _; rfl
  | cons x xs ih =>
    intro hx
    rw [List.filterMap_cons, hx x (by simp), List.map_cons, ih (fun y hy => hx y (by simp [hy]))]

theorem reconcileDbEq (myId : String) (normalize : Status → String) (freshMsgId : Nat → MsgId)
    (msgFail : Status → Bool) (relFail : Nat → Bool) (tid : ThreadId)
    (ancestors : List Status) (db : Db)
    (hnf1 : ∀ a ∈ ancestors, msgFail a = false)
    (hnf2 : ∀ i, i < ancestors.length → relFail i = false) :
    (reconcileThread myId normalize freshMsgId msgFail relFail tid ancestors db).1 = some tid ∧
    (reconcileThread myId normalize freshMsgId msgFail relFail tid ancestors db).2 =
      { messages := db.messages ++
          ancestors.enum.map (fun p => mkChatgptRow myId normalize (freshMsgId p.1) p.2),
        threads := db.threads ++ [tid],
        rels := db.rels ++
          ((ancestors.enum.map (fun p =>
              mkChatgptRow myId normalize (freshMsgId p.1) p.2)).enum.map
            (fun p =>
              ({ threadId := tid, chatgptMessageId := p.2.id,
                 sequenceNum := (p.1 : Int) + 1 } : ThreadRel))) } := by
  have hkept : ancestors.filter (fun s => !(msgFail s)) = ancestors :=
    List.filter_eq_self.2 (fun a ha => by simp [hnf1 a ha])
  have hlen : (ancestors.enum.map (fun p =>
      mkChatgptRow myId normalize (freshMsgId p.1) p.2)).length = ancestors.length := by
    simp
  have hrelfilter : ((ancestors.enum.map (fun p =>
        mkChatgptRow myId normalize (freshMsgId p.1) p.2)).enum.filter
      (fun p => !(relFail p.1))) =
      (ancestors.enum.map (fun p => mkChatgptRow myId normalize (freshMsgId p.1) p.2)).enum :=
    List.filter_eq_self.2 (fun p hp => by
      have hb := (enumFrom_fst_bounds _ 0 p hp).2.1
      rw [hlen] at hb
      simp [hnf2 p.1 (by omega)])
  simp only [reconcileThread, hkept, hrelfilter]
  exact ⟨by trivial, by trivial⟩


theorem queryFreshThread (dbOld : Db) (ths : List ThreadId) (tid : ThreadId)
    (rows : List MessageRow)
    (htid : relsOfThread dbOld tid = [])
    (hfindAll : ∀ p ∈ rows.enum,
      (dbOld.messages ++ rows).find? (fun m => m.id == p.2.id) = some p.2)
    (htype : ∀ r ∈ rows, (r.messageType == "pseudo_message") = false) :
    getChatgptMessagesByThreadId
      { messages := dbOld.messages ++ rows, threads := ths,
        rels := dbOld.rels ++ rows.enum.map (fun p =>
          ({ threadId := tid, chatgptMessageId := p.2.id,
             sequenceNum := (p.1 : Int) + 1 } : ThreadRel)) } tid =
      rows.enum.map (fun p => (p.2, (p.1 : Int) + 1)) := by
  unfold getChatgptMessagesByThreadId
  simp only [List.filterMap_append]
  have hA : dbOld.rels.filterMap (joinRow (dbOld.messages ++ rows) tid) = [] := by
    refine List.filterMap_eq_nil_iff.2 ?_
    intro r hr
    have hno := List.filter_eq_nil_iff.1 htid r hr
    unfold joinRow
    rw [if_neg (by simpa using hno)]
  rw [hA, List.nil_append, List.filterMap_map]
  have hB : (rows.enum.filterMap
      ((joinRow (dbOld.messages ++ rows) tid) ∘ (fun p =>
        ({ threadId := tid, chatgptMessageId := p.2.id,
           sequenceNum := (p.1 : Int) + 1 } : ThreadRel)))) =
      rows.enum.map (fun p => (p.2, (p.1 : Int) + 1)) := by
    refine filterMap_eq_map_of_some _ ?_
    intro p hp
    simp [joinRow, hfindAll p hp]
  rw [hB]
  have hC : (rows.enum.map (fun p => (p.2, (p.1 : Int) + 1))).filter
      (fun p => !(p.1.messageType == "pseudo_message")) =
      rows.enum.map (fun p => (p.2, (p.1 : Int) + 1)) := by
    refine List.filter_eq_self.2 ?_
    intro x hx
    obtain ⟨q, hq, heq⟩ := List.mem_map.1 hx
    have hmem := (enumFrom_fst_bounds _ 0 q hq).2.2
    rw [← heq]
    simp [htype q.2 hmem]
  rw [hC]
  refine List.Sorted.insertionSort_eq ?_
  show List.Pairwise _ _
  rw [List.pairwise_map]
  refine List.Pairwise.imp_of_mem ?_ (enumFrom_pairwise_fst _ 0)
  intro a b _ _ hlt
  show rowSeqLe _ _
  unfold rowSeqLe
  simp only []
  omega

theorem reconcileQueryEq (myId : String) (normalize : Status → String)
    (freshMsgId : Nat → MsgId) (msgFail : Status → Bool) (relFail : Nat → Bool)
    (tid : ThreadId) (ancestors : List Status) (db : Db)
    (hnf1 : ∀ a ∈ ancestors, msgFail a = false)
    (hnf2 : ∀ i, i < ancestors.length → relFail i = false)
    (htid : relsOfThread db tid = [])
    (hold : ∀ i, i < ancestors.length → ∀ m ∈ db.messages, m.id ≠ freshMsgId i)
    (hinj : ∀ i, i < ancestors.length → ∀ j, j < ancestors.length → i ≠ j →
      freshMsgId i ≠ freshMsgId j) :
    getChatgptMessagesByThreadId
        (reconcileThread myId normalize freshMsgId msgFail relFail tid ancestors db).2 tid =
      (ancestors.enum.map (fun p =>
        mkChatgptRow myId normalize (freshMsgId p.1) p.2)).enum.map
        (fun p => (p.2, (p.1 : Int) + 1)) := by
  obtain ⟨-, hdb⟩ :=
    reconcileDbEq myId normalize freshMsgId msgFail relFail tid ancestors db hnf1 hnf2
  rw [hdb]
  have hnodup : ((ancestors.enum.map (fun p =>
      mkChatgptRow myId normalize (freshMsgId p.1) p.2)).map (fun m => m.id)).Nodup := by
    rw [List.map_map]
    show List.Pairwise _ _
    rw [List.pairwise_map]
    refine List.Pairwise.imp_of_mem ?_ (enumFrom_pairwise_fst ancestors 0)
    intro a b ha hb hlt
    have hba := (enumFrom_fst_bounds ancestors 0 a ha).2.1
    have hbb := (enumFrom_fst_bounds ancestors 0 b hb).2.1
    exact hinj a.1 (by omega) b.1 (by omega) (by omega)
  refine queryFreshThread db (db.threads ++ [tid]) tid _ htid ?_ ?_
  · intro p hp
    have hmem := (enumFrom_fst_bounds _ 0 p hp).2.2
    rw [find?_append_none _ db.messages _ ?_]
    · exact find?_by_id _ hnodup p.2 hmem
    · intro m hm
      obtain ⟨q, hq, heq⟩ := List.mem_map.1 hmem
      have hqb := (enumFrom_fst_bounds ancestors 0 q hq).2.1
      have hne := hold q.1 (by omega) m hm
      rw [← heq]
      simp only [mkChatgptRow, beq_eq_false_iff_ne, ne_eq]
      exact hne
  · intro r hr
    obtain ⟨q, hq, heq⟩ := List.mem_map.1 hr
    rw [← heq]
    simp [mkChatgptRow]

theorem enumFrom_map_statusId :
    ∀ (l : List MessageRow) (k : Nat),
      (List.enumFrom k l).map (fun p => p.2.mastodonStatusId) =
        l.map (fun m => m.mastodonStatusId) := by
  intro l
  induction l with
  | nil => intro k; rfl
  | cons x xs ih => intro k; simp only [List.enumFrom, List.map, ih]

theorem enumFrom_map_someId :
    ∀ (l : List Status) (k : Nat),
      (List.enumFrom k l).map (fun p => some p.2.id) = l.map (fun a => some a.id) := by
  intro l
  induction l with
  | nil => intro k; rfl
  | cons x xs ih => intro k; simp only [List.enumFrom, List.map, ih]

theorem enumFrom_map_seq {α : Type _} :
    ∀ (l : List α) (k : Nat),
      (List.enumFrom k l).map (fun p => (p.1 : Int) + 1) =
        (List.range' k l.length).map (fun i : Nat => (i : Int) + 1) := by
  intro l
  induction l with
  | nil => intro k; rfl
  | cons x xs ih => intro k; simp only [List.enumFrom, List.map, List.length_cons, List.range', ih]

theorem countP_rows_statusId (myId : String) (normalize : Status → String)
    (freshMsgId : Nat → MsgId) (sid : String) :
    ∀ (l : List Status) (k : Nat),
      ((List.enumFrom k l).map (fun p =>
        mkChatgptRow myId normalize (freshMsgId p.1) p.2)).countP
          (fun m => m.mastodonStatusId == some sid) =
        l.countP (fun a => a.id == sid) := by
  intro l
  induction l with
  | nil => intro k; rfl
  | cons x xs ih =>
    intro k
    simp only [List.enumFrom, List.map, List.countP_cons, ih]
    congr 1

/-- Claim C3: reconciling a post whose ancestor chain is stored nowhere yet
creates a new thread whose restored rows carry exactly the ancestors' status
ids in root-first order, with sequence numbers 1..n, and no row of the new
thread references the triggering post itself. -/
theorem reconcileExcludesTrigger (myId : String) (normalize : Status → String)
    (freshMsgId : Nat → MsgId) (msgFail : Status → Bool) (relFail : Nat → Bool)
    (tid : ThreadId) (ancestors : List Status) (db : Db) (trigger : String)
    (hnf1 : ∀ a ∈ ancestors, msgFail a = false)
    (hnf2 : ∀ i, i < ancestors.length → relFail i = false)
    (htid : relsOfThread db tid = [])
    (hold : ∀ i, i < ancestors.length → ∀ m ∈ db.messages, m.id ≠ freshMsgId i)
    (hinj : ∀ i, i < ancestors.length → ∀ j, j < ancestors.length → i ≠ j →
      freshMsgId i ≠ freshMsgId j)
    (htrig : ∀ a ∈ ancestors, a.id ≠ trigger)
    (hstored : ∀ a ∈ ancestors, isStoredStatus db a.id = false) :
    (reconcileThread myId normalize freshMsgId msgFail relFail tid ancestors db).1 =
      some tid ∧
    threadStatusIds
        (reconcileThread myId normalize freshMsgId msgFail relFail tid ancestors db).2 tid =
      ancestors.map (fun a => some a.id) ∧
    threadSeqs
        (reconcileThread myId normalize freshMsgId msgFail relFail tid ancestors db).2 tid =
      (List.range ancestors.length).map (fun i : Nat => (i : Int) + 1) ∧
    ∀ s ∈ threadStatusIds
        (reconcileThread myId normalize freshMsgId msgFail relFail tid ancestors db).2 tid,
      s ≠ some trigger := by
  have hq := reconcileQueryEq myId normalize freshMsgId msgFail relFail tid ancestors db
    hnf1 hnf2 htid hold hinj
  have hres := (reconcileDbEq myId normalize freshMsgId msgFail relFail tid ancestors db
    hnf1 hnf2).1
  have hlen : (ancestors.enum.map (fun p =>
      mkChatgptRow myId normalize (freshMsgId p.1) p.2)).length = ancestors.length := by
    simp
  have hsid : threadStatusIds
      (reconcileThread myId normalize freshMsgId msgFail relFail tid ancestors db).2 tid =
      ancestors.map (fun a => some a.id) := by
    unfold threadStatusIds
    rw [hq, List.map_map]
    show List.map (fun p => p.2.mastodonStatusId)
      (List.enumFrom 0 (List.map (fun p =>
        mkChatgptRow myId normalize (freshMsgId p.1) p.2) (List.enumFrom 0 ancestors))) = _
    rw [enumFrom_map_statusId, List.map_map]
    show List.map (fun p => some p.2.id) (List.enumFrom 0 ancestors) = _
    rw [enumFrom_map_someId]
  refine ⟨hres, hsid, ?_, ?_⟩
  · unfold threadSeqs
    rw [hq, List.map_map]
    show List.map (fun p => (p.1 : Int) + 1)
      (List.enumFrom 0 (List.map (fun p =>
        mkChatgptRow myId normalize (freshMsgId p.1) p.2) (List.enumFrom 0 ancestors))) = _
    rw [enumFrom_map_seq]
    simp only [List.length_map, List.enumFrom_length]
    rw [List.range_eq_range']
  · intro s hs
    rw [hsid] at hs
    obtain ⟨a, ha, rfl⟩ := List.mem_map.1 hs
    simpa using htrig a ha

/-- Witness for claim C3: two unstored ancestors, trigger "p9". -/
theorem reconcileExcludesTriggerWitness :
    threadStatusIds
        (reconcileThread ("bot") (fun s => s.content) (fun i => 100 + i) (fun _ => false)
          (fun _ => false) 5
          [{ id := "a1", inReplyToId := "", content := "q", accountId := "u1",
             accountAcct := "alice", visibility := "public", createdAt := "t1" },
           { id := "a2", inReplyToId := "a1", content := "r", accountId := "bot",
             accountAcct := "teobot", visibility := "public", createdAt := "t2" }]
          { messages := [], threads := [], rels := [] }).2 5 =
      [some ("a1"), some ("a2")] ∧
    ∀ s ∈ threadStatusIds
        (reconcileThread ("bot") (fun s => s.content) (fun i => 100 + i) (fun _ => false)
          (fun _ => false) 5
          [{ id := "a1", inReplyToId := "", content := "q", accountId := "u1",
             accountAcct := "alice", visibility := "public", createdAt := "t1" },
           { id := "a2", inReplyToId := "a1", content := "r", accountId := "bot",
             accountAcct := "teobot", visibility := "public", createdAt := "t2" }]
          { messages := [], threads := [], rels := [] }).2 5,
      s ≠ some ("p9") := by
  have h := reconcileExcludesTrigger ("bot") (fun s => s.content) (fun i => 100 + i)
    (fun _ => false) (fun _ => false) 5
    [{ id := "a1", inReplyToId := "", content := "q", accountId := "u1",
       accountAcct := "alice", visibility := "public", createdAt := "t1" },
     { id := "a2", inReplyToId := "a1", content := "r", accountId := "bot",
       accountAcct := "teobot", visibility := "public", createdAt := "t2" }]
    { messages := [], threads := [], rels := [] } ("p9")
    (by decide) (by decide) (by decide) (by decide) (by decide) (by decide) (by decide)
  exact ⟨by rw [h.2.1]; decide, h.2.2.2⟩

/-- Claim C9 counterexample: reconciling an ancestor whose status id is
already stored persists a second message row with the same
`mastodon_status_id` — the code never checks the store before inserting. -/
theorem reconcileDuplicatesStoredCex :
    isStoredStatus
      { messages :=
          [{ id := 1, messageType := "mastodon_status",
             body := { role := "user", content := "q", name := "alice" },
             userName := "alice", mastodonStatusId := some ("a1"), timestamp := "t0",
             privacyLevel := "public" }],
        threads := [], rels := [] } ("a1") = true ∧
    (reconcileThread ("bot") (fun s => s.content) (fun i => 100 + i) (fun _ => false)
        (fun _ => false) 5
        [{ id := "a1", inReplyToId := "", content := "q", accountId := "u1",
           accountAcct := "alice", visibility := "public", createdAt := "t1" }]
        { messages :=
            [{ id := 1, messageType := "mastodon_status",
               body := { role := "user", content := "q", name := "alice" },
               userName := "alice", mastodonStatusId := some ("a1"), timestamp := "t0",
               privacyLevel := "public" }],
          threads := [], rels := [] }).2.messages.countP
      (fun m => m.mastodonStatusId == some ("a1")) = 2 := by
  exact ⟨by decide, by decide⟩

/-- Claim C9 (amended): reconciliation constructs and persists a fresh message
row for every ancestor unconditionally; for any status id, the number of
stored rows carrying it grows by the number of ancestors carrying it, whether
or not a row with that id was already stored. -/
theorem reconcilePersistsAll (myId : String) (normalize : Status → String)
    (freshMsgId : Nat → MsgId) (msgFail : Status → Bool) (relFail : Nat → Bool)
    (tid : ThreadId) (ancestors : List Status) (db : Db) (sid : String)
    (hnf1 : ∀ a ∈ ancestors, msgFail a = false)
    (hnf2 : ∀ i, i < ancestors.length → relFail i = false) :
    (reconcileThread myId normalize freshMsgId msgFail relFail tid
        ancestors db).2.messages.countP (fun m => m.mastodonStatusId == some sid) =
      db.messages.countP (fun m => m.mastodonStatusId == some sid) +
        ancestors.countP (fun a => a.id == sid) := by
  obtain ⟨-, hdb⟩ :=
    reconcileDbEq myId normalize freshMsgId msgFail relFail tid ancestors db hnf1 hnf2
  rw [hdb]
  show (db.messages ++ _).countP _ = _
  rw [List.countP_append]
  congr 1
  exact countP_rows_statusId myId normalize freshMsgId sid ancestors 0

/-- Witness for the amended claim C9 at an already-stored ancestor. -/
theorem reconcilePersistsAllWitness :
    (reconcileThread ("bot") (fun s => s.content) (fun i => 100 + i) (fun _ => false)
        (fun _ => false) 5
        [{ id := "a1", inReplyToId := "", content := "q", accountId := "u1",
           accountAcct := "alice", visibility := "public", createdAt := "t1" }]
        { messages :=
            [{ id := 1, messageType := "mastodon_status",
               body := { role := "user", content := "q", name := "alice" },
               userName := "alice", mastodonStatusId := some ("a1"), timestamp := "t0",
               privacyLevel := "public" }],
          threads := [], rels := [] }).2.messages.countP
      (fun m => m.mastodonStatusId == some ("a1")) =
      ({ messages :=
            [{ id := 1, messageType := "mastodon_status",
               body := { role := "user", content := "q", name := "alice" },
               userName := "alice", mastodonStatusId := some ("a1"), timestamp := "t0",
               privacyLevel := "public" }],
          threads := [], rels := [] } : Db).messages.countP
        (fun m => m.mastodonStatusId == some ("a1")) +
        ([{ id := "a1", inReplyToId := "", content := "q", accountId := "u1",
            accountAcct := "alice", visibility := "public", createdAt := "t1" }] :
          List Status).countP (fun a => a.id == ("a1")) :=
  reconcilePersistsAll ("bot") (fun s => s.content) (fun i => 100 + i) (fun _ => false)
    (fun _ => false) 5
    [{ id := "a1", inReplyToId := "", content := "q", accountId := "u1",
       accountAcct := "alice", visibility := "public", createdAt := "t1" }]
    { messages :=
        [{ id := 1, messageType := "mastodon_status",
           body := { role := "user", content := "q", name := "alice" },
           userName := "alice", mastodonStatusId := some ("a1"), timestamp := "t0",
           privacyLevel := "public" }],
      threads := [], rels := [] } ("a1")
    (by decide) (by decide)

/-! ### Linear replay (claim C4) -/

/-- A successful `joinRow` forces the rel to belong to the thread and fixes the
returned sequence number. -/
theorem joinRow_eq_some {msgs : List MessageRow} {t : ThreadId} {r : ThreadRel}
    {x : MessageRow × Int} (h : joinRow msgs t r = some x) :
    r.threadId = t ∧ x.2 = r.sequenceNum := by
  unfold joinRow at h
  cases ht : (r.threadId == t) with
  | false => rw [ht] at h; simp at h
  | true =>
    rw [ht, if_pos rfl] at h
    rcases Option.map_eq_some'.1 h with ⟨m, hm, hfm⟩
    exact ⟨by simpa using ht, by rw [← hfm]⟩

/-- Pairwise facts about a filtered list lift to conditional pairwise facts
about the original list. -/
theorem pairwise_of_filter_pairwise {α : Type} {R : α → α → Prop} (p : α → Bool) :
    ∀ l : List α, (l.filter p).Pairwise R →
      l.Pairwise (fun a b => p a = true → p b = true → R a b) := by
  intro l
  induction l with
  | nil => intro _; exact List.Pairwise.nil
  | cons a l ih =>
    intro h
    cases hp : p a with
    | false =>
      rw [List.filter_cons, hp] at h
      simp only [Bool.false_eq_true, if_false] at h
      exact List.Pairwise.cons (fun b _ ha _ => by rw [hp] at ha; exact absurd ha (by simp))
        (ih h)
    | true =>
      rw [List.filter_cons, hp, if_pos rfl] at h
      rcases List.pairwise_cons.1 h with ⟨h1, h2⟩
      refine List.Pairwise.cons ?_ (ih h2)
      intro b hb _ hpb
      exact h1 b (List.mem_filter.2 ⟨hb, hpb⟩)

/-- Distinct sequence numbers among a thread's rel rows make the joined rows of
`GetChatgptMessagesByThreadId` pairwise distinct in their sequence component. -/
theorem joined_pairwise_ne (db : Db) (t : ThreadId) (h : distinctSeqs db t) :
    (db.rels.filterMap (joinRow db.messages t)).Pairwise
      (fun x y : MessageRow × Int => x.2 ≠ y.2) := by
  apply List.pairwise_filterMap.2
  have h0 : (db.rels.filter (fun r => r.threadId == t)).Pairwise
      (fun a b => a.sequenceNum ≠ b.sequenceNum) := h
  have h2 := pairwise_of_filter_pairwise (fun r => r.threadId == t) db.rels h0
  refine h2.imp ?_
  intro a b hab x hx y hy
  obtain ⟨hta, hxa⟩ := joinRow_eq_some (Option.mem_def.1 hx)
  obtain ⟨htb, hyb⟩ := joinRow_eq_some (Option.mem_def.1 hy)
  rw [hxa, hyb]
  exact hab (by simp [hta]) (by simp [htb])

/-- Claim C4 counterexample: a `pseudo_message` row occupies a sequence number
inside the thread but is filtered out of `restoreThread`, so the returned
sequence numbers are [1, 3] — strictly increasing but with a gap, refuting the
no-gaps part of the claim. -/
theorem restoreGapCex :
    threadSeqs
      { messages :=
          [{ id := 1, messageType := "user_status",
             body := { role := "user", content := "hi", name := "alice" },
             userName := "alice", mastodonStatusId := some ("s1"), timestamp := "t1",
             privacyLevel := "public" },
           { id := 2, messageType := "pseudo_message",
             body := { role := "user", content := "bookkeeping", name := "alice" },
             userName := "alice", mastodonStatusId := some ("s2"), timestamp := "t2",
             privacyLevel := "public" },
           { id := 3, messageType := "ai_response",
             body := { role := "assistant", content := "yo", name := "teobot" },
             userName := "teobot", mastodonStatusId := some ("s3"), timestamp := "t3",
             privacyLevel := "public" }],
        threads := [1],
        rels := [{ threadId := 1, chatgptMessageId := 1, sequenceNum := 1 },
                 { threadId := 1, chatgptMessageId := 2, sequenceNum := 2 },
                 { threadId := 1, chatgptMessageId := 3, sequenceNum := 3 }] } 1 =
      [1, 3] ∧
    ¬ List.Chain' (fun a b : Int => b = a + 1)
      (threadSeqs
        { messages :=
            [{ id := 1, messageType := "user_status",
               body := { role := "user", content := "hi", name := "alice" },
               userName := "alice", mastodonStatusId := some ("s1"), timestamp := "t1",
               privacyLevel := "public" },
             { id := 2, messageType := "pseudo_message",
               body := { role := "user", content := "bookkeeping", name := "alice" },
               userName := "alice", mastodonStatusId := some ("s2"), timestamp := "t2",
               privacyLevel := "public" },
             { id := 3, messageType := "ai_response",
               body := { role := "assistant", content := "yo", name := "teobot" },
               userName := "teobot", mastodonStatusId := some ("s3"), timestamp := "t3",
               privacyLevel := "public" }],
          threads := [1],
          rels := [{ threadId := 1, chatgptMessageId := 1, sequenceNum := 1 },
                   { threadId := 1, chatgptMessageId := 2, sequenceNum := 2 },
                   { threadId := 1, chatgptMessageId := 3, sequenceNum := 3 }] } 1) := by
  have h1 : threadSeqs
      { messages :=
          [{ id := 1, messageType := "user_status",
             body := { role := "user", content := "hi", name := "alice" },
             userName := "alice", mastodonStatusId := some ("s1"), timestamp := "t1",
             privacyLevel := "public" },
           { id := 2, messageType := "pseudo_message",
             body := { role := "user", content := "bookkeeping", name := "alice" },
             userName := "alice", mastodonStatusId := some ("s2"), timestamp := "t2",
             privacyLevel := "public" },
           { id := 3, messageType := "ai_response",
             body := { role := "assistant", content := "yo", name := "teobot" },
             userName := "teobot", mastodonStatusId := some ("s3"), timestamp := "t3",
             privacyLevel := "public" }],
        threads := [1],
        rels := [{ threadId := 1, chatgptMessageId := 1, sequenceNum := 1 },
                 { threadId := 1, chatgptMessageId := 2, sequenceNum := 2 },
                 { threadId := 1, chatgptMessageId := 3, sequenceNum := 3 }] } 1 =
      [1, 3] := by decide
  refine ⟨h1, ?_⟩
  rw [h1]
  intro hc
  rcases List.chain'_cons.1 hc with ⟨h12, _⟩
  omega

/-- Claim C4 (amended): when the thread's rel rows carry pairwise-distinct
sequence numbers, `restoreThread` returns its non-pseudo messages ordered
strictly increasing by sequence number — no duplicates; gaps can occur because
`pseudo_message` rows occupy sequence numbers but are filtered out. -/
theorem restoreStrictOrder (db : Db) (t : ThreadId) (h : distinctSeqs db t) :
    List.Pairwise (fun a b : Int => a < b) (threadSeqs db t) := by
  have hne := joined_pairwise_ne db t h
  have hneF := hne.filter (fun p => !(p.1.messageType == "pseudo_message"))
  have hperm := List.perm_insertionSort rowSeqLe
    ((db.rels.filterMap (joinRow db.messages t)).filter
      (fun p => !(p.1.messageType == "pseudo_message")))
  have hneS : (List.insertionSort rowSeqLe
      ((db.rels.filterMap (joinRow db.messages t)).filter
        (fun p => !(p.1.messageType == "pseudo_message")))).Pairwise
      (fun x y : MessageRow × Int => x.2 ≠ y.2) :=
    (List.Perm.pairwise_iff (fun hxy => Ne.symm hxy) hperm).2 hneF
  have hsort : (List.insertionSort rowSeqLe
      ((db.rels.filterMap (joinRow db.messages t)).filter
        (fun p => !(p.1.messageType == "pseudo_message")))).Pairwise rowSeqLe :=
    List.sorted_insertionSort rowSeqLe _
  have hlt := (hsort.and hneS).imp
    (fun hab => lt_of_le_of_ne hab.1 hab.2)
  show (List.map (fun p : MessageRow × Int => p.2)
    (List.insertionSort rowSeqLe
      ((db.rels.filterMap (joinRow db.messages t)).filter
        (fun p => !(p.1.messageType == "pseudo_message"))))).Pairwise
    (fun a b : Int => a < b)
  exact List.pairwise_map.2 hlt

/-- Witness for the amended claim C4 at a concrete thread with distinct
sequence numbers. -/
theorem restoreStrictOrderWitness :
    List.Pairwise (fun a b : Int => a < b)
      (threadSeqs
        { messages :=
            [{ id := 4, messageType := "user_status",
               body := { role := "user", content := "q" , name := "bob" },
               userName := "bob", mastodonStatusId := some ("u1"), timestamp := "t4",
               privacyLevel := "public" },
             { id := 5, messageType := "ai_response",
               body := { role := "assistant", content := "a", name := "teobot" },
               userName := "teobot", mastodonStatusId := some ("u2"), timestamp := "t5",
               privacyLevel := "public" }],
          threads := [2],
          rels := [{ threadId := 2, chatgptMessageId := 5, sequenceNum := 2 },
                   { threadId := 2, chatgptMessageId := 4, sequenceNum := 1 }] } 2) :=
  restoreStrictOrder
    { messages :=
        [{ id := 4, messageType := "user_status",
           body := { role := "user", content := "q" , name := "bob" },
           userName := "bob", mastodonStatusId := some ("u1"), timestamp := "t4",
           privacyLevel := "public" },
         { id := 5, messageType := "ai_response",
           body := { role := "assistant", content := "a", name := "teobot" },
           userName := "teobot", mastodonStatusId := some ("u2"), timestamp := "t5",
           privacyLevel := "public" }],
      threads := [2],
      rels := [{ threadId := 2, chatgptMessageId := 5, sequenceNum := 2 },
               { threadId := 2, chatgptMessageId := 4, sequenceNum := 1 }] } 2
    (by unfold distinctSeqs relsOfThread; decide)

/-! ### Resolver lemmas (claim C1) -/

/-- Every key in `addToGroups gs r` is the new row's thread id or an existing
key. -/
theorem addToGroups_key_mem (r : ThreadRel) :
    ∀ gs : List (ThreadId × List ThreadRel), ∀ b ∈ addToGroups gs r,
      b.1 = r.threadId ∨ b.1 ∈ gs.map Prod.fst := by
  intro gs
  induction gs with
  | nil =>
    intro b hb
    simp only [addToGroups, List.mem_singleton] at hb
    exact Or.inl (by rw [hb])
  | cons g gs ih =>
    intro b hb
    obtain ⟨t, rs⟩ := g
    simp only [addToGroups] at hb
    cases ht : (t == r.threadId) with
    | true =>
      rw [ht, if_pos rfl] at hb
      rcases List.mem_cons.1 hb with rfl | hb'
      · exact Or.inl (by simpa using ht)
      · exact Or.inr (List.mem_cons_of_mem _ (List.mem_map_of_mem Prod.fst hb'))
    | false =>
      rw [ht] at hb
      simp only [Bool.false_eq_true, if_false] at hb
      rcases List.mem_cons.1 hb with rfl | hb'
      · exact Or.inr (List.mem_cons_self _ _)
      · rcases ih b hb' with h | h
        · exact Or.inl h
        · exact Or.inr (List.mem_cons_of_mem _ h)

/-- `addToGroups` preserves distinctness of the group keys. -/
theorem addToGroups_pairwise (r : ThreadRel) :
    ∀ gs : List (ThreadId × List ThreadRel),
      gs.Pairwise (fun a b => a.1 ≠ b.1) →
      (addToGroups gs r).Pairwise (fun a b => a.1 ≠ b.1) := by
  intro gs
  induction gs with
  | nil => intro _; simp [addToGroups]
  | cons g gs ih =>
    intro h
    obtain ⟨t, rs⟩ := g
    rcases List.pairwise_cons.1 h with ⟨h1, h2⟩
    simp only [addToGroups]
    cases ht : (t == r.threadId) with
    | true =>
      rw [if_pos rfl]
      exact List.Pairwise.cons (fun b hb => h1 b hb) h2
    | false =>
      simp only [Bool.false_eq_true, if_false]
      refine List.Pairwise.cons ?_ (ih h2)
      intro b hb
      rcases addToGroups_key_mem r gs b hb with hk | hk
      · show t ≠ b.1
        rw [hk]
        intro hEq
        rw [hEq] at ht
        simp at ht
      · rcases List.mem_map.1 hk with ⟨g', hg', hgk⟩
        have hne := h1 g' hg'
        show t ≠ b.1
        rw [← hgk]
        exact hne

/-- How `addToGroups` changes the first group carrying a given key. -/
theorem addToGroups_find (r : ThreadRel) (t : ThreadId) :
    ∀ gs : List (ThreadId × List ThreadRel),
      (addToGroups gs r).find? (fun g => g.1 == t) =
        if (r.threadId == t) = true then
          match gs.find? (fun g => g.1 == t) with
          | some g => some (g.1, g.2 ++ [r])
          | none => some (r.threadId, [r])
        else gs.find? (fun g => g.1 == t) := by
  intro gs
  induction gs with
  | nil =>
    show List.find? _ [(r.threadId, [r])] = _
    cases ht : (r.threadId == t) with
    | true => simp [List.find?_cons, ht]
    | false => simp [List.find?_cons, ht]
  | cons g gs ih =>
    obtain ⟨t', rs'⟩ := g
    simp only [addToGroups]
    cases h1 : (t' == r.threadId) with
    | true =>
      rw [if_pos rfl]
      have ht' : t' = r.threadId := by simpa using h1
      cases h2 : (t' == t) with
      | true =>
        have hrt : (r.threadId == t) = true := by rw [← ht']; exact h2
        simp [List.find?_cons, h2, hrt]
      | false =>
        have hrt : (r.threadId == t) = false := by rw [← ht']; exact h2
        simp [List.find?_cons, h2, hrt]
    | false =>
      simp only [Bool.false_eq_true, if_false]
      cases h2 : (t' == t) with
      | true =>
        have hne : t' ≠ r.threadId := by
          intro hEq
          rw [hEq] at h1
          simp at h1
        have htt : t' = t := by simpa using h2
        have hrt : (r.threadId == t) = false := by
          cases hq : (r.threadId == t) with
          | false => rfl
          | true =>
            have : r.threadId = t := by simpa using hq
            exact absurd (htt.trans this.symm) hne
        simp [List.find?_cons, h2, hrt]
      | false =>
        rw [List.find?_cons_of_neg _ (by simp [h2]), List.find?_cons_of_neg _ (by simp [h2])]
        exact ih

/-- First group with a given key after folding `addToGroups`: an existing
group absorbs the key's rows, otherwise those rows form a fresh group. -/
theorem groupByThread_find (t : ThreadId) :
    ∀ (rels : List ThreadRel) (acc : List (ThreadId × List ThreadRel)),
      (rels.foldl addToGroups acc).find? (fun g => g.1 == t) =
        match acc.find? (fun g => g.1 == t) with
        | some g => some (g.1, g.2 ++ rels.filter (fun r => r.threadId == t))
        | none =>
          if rels.any (fun r => r.threadId == t) = true then
            some (t, rels.filter (fun r => r.threadId == t))
          else none := by
  intro rels
  induction rels with
  | nil =>
    intro acc
    cases hf : acc.find? (fun g => g.1 == t) with
    | some g => simp [hf]
    | none => simp [hf]
  | cons r rest ih =>
    intro acc
    show (rest.foldl addToGroups (addToGroups acc r)).find? _ = _
    rw [ih (addToGroups acc r), addToGroups_find r t acc]
    cases hrt : (r.threadId == t) with
    | true =>
      rw [if_pos rfl]
      have hrt' : r.threadId = t := by simpa using hrt
      cases hf : acc.find? (fun g => g.1 == t) with
      | some g => simp [List.filter_cons, hrt, List.append_assoc]
      | none => simp [List.filter_cons, List.any_cons, hrt, hrt']
    | false =>
      simp only [Bool.false_eq_true, if_false]
      cases hf : acc.find? (fun g => g.1 == t) with
      | some g => simp [List.filter_cons, hrt]
      | none => simp [List.filter_cons, List.any_cons, hrt]

/-- Folding `addToGroups` from a key-distinct accumulator keeps the keys
distinct. -/
theorem groupByThread_pairwise_keys :
    ∀ (rels : List ThreadRel) (acc : List (ThreadId × List ThreadRel)),
      acc.Pairwise (fun a b => a.1 ≠ b.1) →
      (rels.foldl addToGroups acc).Pairwise (fun a b => a.1 ≠ b.1) := by
  intro rels
  induction rels with
  | nil => intro acc h; exact h
  | cons r rest ih => intro acc h; exact ih _ (addToGroups_pairwise r acc h)

/-- In a list of pairs with distinct first components, two members with the
same first component are the same pair. -/
theorem eq_of_mem_pairwise_keys {α β : Type} :
    ∀ l : List (α × β), l.Pairwise (fun a b => a.1 ≠ b.1) →
      ∀ g ∈ l, ∀ g' ∈ l, g.1 = g'.1 → g = g' := by
  intro l
  induction l with
  | nil => intro _ g hg; exact absurd hg (List.not_mem_nil g)
  | cons a l ih =>
    intro h g hg g' hg' hk
    rcases List.pairwise_cons.1 h with ⟨h1, h2⟩
    rcases List.mem_cons.1 hg with rfl | hgm
    · rcases List.mem_cons.1 hg' with rfl | hgm'
      · rfl
      · exact absurd hk (h1 g' hgm')
    · rcases List.mem_cons.1 hg' with rfl | hgm'
      · exact absurd hk.symm (h1 g hgm)
      · exact ih h2 g hgm g' hgm' hk

/-- Every group produced by `groupByThread` holds exactly the rows of its key,
in input order. -/
theorem groupByThread_content {rels : List ThreadRel}
    {g : ThreadId × List ThreadRel} (hg : g ∈ groupByThread rels) :
    g = (g.1, rels.filter (fun r => r.threadId == g.1)) := by
  have hfind := groupByThread_find g.1 rels []
  simp only [List.find?_nil] at hfind
  cases hany : rels.any (fun r => r.threadId == g.1) with
  | false =>
    rw [hany] at hfind
    simp only [Bool.false_eq_true, if_false] at hfind
    have hg' : g ∈ rels.foldl addToGroups [] := hg
    have := List.find?_eq_none.1 hfind g hg'
    simp at this
  | true =>
    rw [hany, if_pos rfl] at hfind
    have hmem := List.mem_of_find?_eq_some hfind
    have hpair := groupByThread_pairwise_keys rels [] List.Pairwise.nil
    have hg' : g ∈ rels.foldl addToGroups [] := hg
    exact eq_of_mem_pairwise_keys _ hpair g hg' _ hmem rfl

/-- If some row carries the key, `groupByThread` holds a group collecting
exactly that key's rows. -/
theorem groupByThread_exists_key {rels : List ThreadRel} {t : ThreadId}
    (h : rels.any (fun r => r.threadId == t) = true) :
    (t, rels.filter (fun r => r.threadId == t)) ∈ groupByThread rels := by
  have hfind := groupByThread_find t rels []
  simp only [List.find?_nil] at hfind
  rw [h, if_pos rfl] at hfind
  exact List.mem_of_find?_eq_some hfind

/-- The last element of a pairwise-related list is related to every earlier
member. -/
theorem getLast?_dominates {α : Type} {R : α → α → Prop} :
    ∀ (l : List α) (x : α), l.Pairwise R → l.getLast? = some x →
      ∀ y ∈ l, y = x ∨ R y x := by
  intro l
  induction l with
  | nil => intro x _ hx _ hy; exact absurd hy (List.not_mem_nil _)
  | cons a l ih =>
    intro x hp hx y hy
    rcases List.pairwise_cons.1 hp with ⟨h1, h2⟩
    cases l with
    | nil =>
      rw [List.getLast?_singleton] at hx
      rcases List.mem_singleton.1 hy with rfl
      exact Or.inl (Option.some.inj hx)
    | cons b l' =>
      rw [List.getLast?_cons_cons] at hx
      rcases List.mem_cons.1 hy with rfl | hy'
      · exact Or.inr (h1 x (List.mem_of_getLast?_eq_some hx))
      · exact ih x h2 hx y hy'

/-- If an element satisfies the predicate and every satisfying member equals
it, `find?` returns it — in particular the result does not depend on the
order of the list. -/
theorem find?_eq_some_of_unique {α : Type} (p : α → Bool) (a : α) :
    ∀ l : List α, a ∈ l → p a = true → (∀ b ∈ l, p b = true → b = a) →
      l.find? p = some a := by
  intro l
  induction l with
  | nil => intro h; exact absurd h (List.not_mem_nil a)
  | cons x l ih =>
    intro hmem hpa hall
    cases hpx : p x with
    | true =>
      simp only [List.find?_cons, hpx]
      rw [hall x (List.mem_cons_self x l) hpx]
    | false =>
      simp only [List.find?_cons, hpx]
      have hax : a ≠ x := by
        intro h
        rw [← h] at hpx
        rw [hpa] at hpx
        simp at hpx
      rcases List.mem_cons.1 hmem with h | h
      · exact absurd h hax
      · exact ih h hpa (fun b hb hpb => hall b (List.mem_cons_of_mem x hb) hpb)

/-- The thread-`t` slice of the sorted `GetChatgptThreadRels` result is a
permutation of the thread's stored rel rows, provided `t` is one of the
threads containing the message. -/
theorem rels_filter_perm (db : Db) (mid : MsgId) (t : ThreadId)
    (ht : (threadsContaining db mid).contains t = true) :
    List.Perm ((getChatgptThreadRels db mid).filter (fun r => r.threadId == t))
      (relsOfThread db t) := by
  have hperm : List.Perm (getChatgptThreadRels db mid)
      (db.rels.filter (fun r => (threadsContaining db mid).contains r.threadId)) :=
    List.perm_insertionSort relLe _
  have h1 := hperm.filter (fun r => r.threadId == t)
  have h2 : (db.rels.filter
        (fun r => (threadsContaining db mid).contains r.threadId)).filter
      (fun r => r.threadId == t) = relsOfThread db t := by
    unfold relsOfThread
    rw [List.filter_filter]
    apply List.filter_congr
    intro a _
    show ((a.threadId == t) && (threadsContaining db mid).contains a.threadId) =
      (a.threadId == t)
    cases hq : (a.threadId == t) with
    | false => rfl
    | true =>
      have hat : a.threadId = t := by simpa using hq
      rw [hat, ht]
      rfl
  rw [h2] at h1
  exact h1

/-- The thread-`t` slice of the sorted `GetChatgptThreadRels` result is sorted
by sequence number. -/
theorem filtered_sorted_seq (db : Db) (mid : MsgId) (t : ThreadId) :
    ((getChatgptThreadRels db mid).filter (fun r => r.threadId == t)).Pairwise
      (fun a b => a.sequenceNum ≤ b.sequenceNum) := by
  have hs : (getChatgptThreadRels db mid).Pairwise relLe :=
    List.sorted_insertionSort relLe _
  have hf := hs.filter (fun r => r.threadId == t)
  refine List.Pairwise.imp_of_mem ?_ hf
  intro a b ha hb hab
  have hat : a.threadId = t := by simpa using List.of_mem_filter ha
  have hbt : b.threadId = t := by simpa using List.of_mem_filter hb
  have hab' : a.threadId < b.threadId ∨
      (a.threadId = b.threadId ∧ a.sequenceNum ≤ b.sequenceNum) := hab
  rcases hab' with h | ⟨_, h⟩
  · rw [hat, hbt] at h
    exact absurd h (lt_irrefl t)
  · exact h

/-- Claim C1: resolver determinism for an unforked reply. If the replied-to
status is stored as message `m`, thread `T` contains `m`, `m` is the last
message (highest sequence number) of `T`, `T` is the only such thread among
the threads containing `m`, each candidate thread's sequence numbers are
pairwise distinct, and the Go map is iterated in an arbitrary order (any
permutation of the grouped candidates), then `GetOrCreateCurrentThreadId`
returns `T` and leaves the store unchanged — in particular it creates no new
thread. -/
theorem resolverUnforkedReply (env : ResolveEnv) (db : Db) (status : Status)
    (m : MessageRow) (T : ThreadId)
    (hreply : ¬(status.inReplyToId = ""))
    (hfound : db.messages.find?
      (fun mm => mm.mastodonStatusId == some status.inReplyToId) = some m)
    (hiter : List.Perm
      (env.iter (groupByThread (getChatgptThreadRels db m.id)))
      (groupByThread (getChatgptThreadRels db m.id)))
    (hT : T ∈ threadsContaining db m.id)
    (hlast : isLastMessageOf db m.id T)
    (huniq : ∀ t ∈ threadsContaining db m.id, isLastMessageOf db m.id t → t = T)
    (hdist : ∀ t ∈ threadsContaining db m.id, distinctSeqs db t) :
    getOrCreateCurrentThreadId env db status = (some T, db) := by
  have hTc : (threadsContaining db m.id).contains T = true :=
    List.elem_eq_true_of_mem hT
  have hT' : ∃ r ∈ db.rels, r.chatgptMessageId = m.id ∧ r.threadId = T := by
    have h0 : T ∈ (db.rels.filter (fun r => r.chatgptMessageId == m.id)).map
        (fun r => r.threadId) := hT
    rcases List.mem_map.1 h0 with ⟨r, hr, hrT⟩
    exact ⟨r, List.mem_of_mem_filter hr, by simpa using List.of_mem_filter hr, hrT⟩
  obtain ⟨r0, hr0_rels, hr0_id, hr0_tid⟩ := hT'
  have hlast' : ∃ r ∈ relsOfThread db T, r.chatgptMessageId = m.id ∧
      ∀ r' ∈ relsOfThread db T, r' ≠ r → r'.sequenceNum < r.sequenceNum := hlast
  obtain ⟨rstar, hrstar_mem, hrstar_id, hrstar_dom⟩ := hlast'
  have hr0L : r0 ∈ getChatgptThreadRels db m.id := by
    have hperm := List.perm_insertionSort relLe
      (db.rels.filter (fun r => (threadsContaining db m.id).contains r.threadId))
    apply hperm.mem_iff.2
    apply List.mem_filter.2
    refine ⟨hr0_rels, ?_⟩
    show (threadsContaining db m.id).contains r0.threadId = true
    rw [hr0_tid]
    exact hTc
  have hany : (getChatgptThreadRels db m.id).any (fun r => r.threadId == T) = true :=
    List.any_eq_true.2 ⟨r0, hr0L, by simp [hr0_tid]⟩
  have hgT : (T, (getChatgptThreadRels db m.id).filter (fun r => r.threadId == T))
      ∈ groupByThread (getChatgptThreadRels db m.id) :=
    groupByThread_exists_key hany
  have hpermT := rels_filter_perm db m.id T hTc
  have hsortT := filtered_sorted_seq db m.id T
  have hrstarT : rstar ∈ (getChatgptThreadRels db m.id).filter
      (fun r => r.threadId == T) := hpermT.mem_iff.2 hrstar_mem
  have hne : (getChatgptThreadRels db m.id).filter (fun r => r.threadId == T) ≠ [] :=
    List.ne_nil_of_mem hrstarT
  cases hgl : ((getChatgptThreadRels db m.id).filter
      (fun r => r.threadId == T)).getLast? with
  | none => exact absurd (List.getLast?_eq_none_iff.1 hgl) hne
  | some x =>
  have hxT : x ∈ (getChatgptThreadRels db m.id).filter (fun r => r.threadId == T) :=
    List.mem_of_getLast?_eq_some hgl
  have hxstar : x = rstar := by
    rcases getLast?_dominates _ x hsortT hgl rstar hrstarT with h | h
    · exact h.symm
    · by_contra hxs
      have hx_rels : x ∈ relsOfThread db T := hpermT.mem_iff.1 hxT
      have hlt := hrstar_dom x hx_rels hxs
      omega
  have hpredT : (((getChatgptThreadRels db m.id).filter
      (fun r => r.threadId == T)).getLast?.any
      (fun r => r.chatgptMessageId == m.id)) = true := by
    rw [hgl]
    show (x.chatgptMessageId == m.id) = true
    rw [hxstar, hrstar_id]
    simp
  have hall : ∀ g ∈ env.iter (groupByThread (getChatgptThreadRels db m.id)),
      (g.2.getLast?.any (fun r => r.chatgptMessageId == m.id)) = true →
      g = (T, (getChatgptThreadRels db m.id).filter (fun r => r.threadId == T)) := by
    intro g hg hpred
    have hgmem : g ∈ groupByThread (getChatgptThreadRels db m.id) := hiter.mem_iff.1 hg
    have hcontent := groupByThread_content hgmem
    cases hgl' : g.2.getLast? with
    | none =>
      rw [hgl'] at hpred
      exact absurd hpred (by simp [Option.any])
    | some x' =>
      rw [hgl'] at hpred
      have hx'id : x'.chatgptMessageId = m.id := by simpa using hpred
      have hx'mem : x' ∈ g.2 := List.mem_of_getLast?_eq_some hgl'
      have hg2 : g.2 = (getChatgptThreadRels db m.id).filter
          (fun r => r.threadId == g.1) := congrArg Prod.snd hcontent
      rw [hg2] at hx'mem hgl'
      have hx'L : x' ∈ getChatgptThreadRels db m.id := List.mem_of_mem_filter hx'mem
      have hx't : x'.threadId = g.1 := by simpa using List.of_mem_filter hx'mem
      have hgc : (threadsContaining db m.id).contains g.1 = true := by
        have hx'L0 : x' ∈ db.rels.filter
            (fun r => (threadsContaining db m.id).contains r.threadId) :=
          (List.perm_insertionSort relLe _).mem_iff.1 hx'L
        have hcf : (threadsContaining db m.id).contains x'.threadId = true := by
          rw [List.mem_filter] at hx'L0
          exact hx'L0.2
        rw [hx't] at hcf
        exact hcf
      have hgmemTC : g.1 ∈ threadsContaining db m.id := List.elem_iff.1 hgc
      have hdistg : (relsOfThread db g.1).Pairwise
          (fun a b => a.sequenceNum ≠ b.sequenceNum) := hdist g.1 hgmemTC
      have hsortg := filtered_sorted_seq db m.id g.1
      have hpermg := rels_filter_perm db m.id g.1 hgc
      have hlastg : isLastMessageOf db m.id g.1 := by
        refine ⟨x', hpermg.mem_iff.1 hx'mem, hx'id, ?_⟩
        intro r' hr' hner'
        have hr'f : r' ∈ (getChatgptThreadRels db m.id).filter
            (fun r => r.threadId == g.1) := hpermg.mem_iff.2 hr'
        rcases getLast?_dominates _ x' hsortg hgl' r' hr'f with h | h
        · exact absurd h hner'
        · have hsym : Symmetric (fun a b : ThreadRel =>
              a.sequenceNum ≠ b.sequenceNum) := fun _ _ hab => Ne.symm hab
          have hne' : r'.sequenceNum ≠ x'.sequenceNum :=
            List.Pairwise.forall hsym hdistg hr' (hpermg.mem_iff.1 hx'mem) hner'
          omega
      have hgT1 : g.1 = T := huniq g.1 hgmemTC hlastg
      rw [hcontent, hgT1]
  have hgT_iter : (T, (getChatgptThreadRels db m.id).filter
      (fun r => r.threadId == T))
      ∈ env.iter (groupByThread (getChatgptThreadRels db m.id)) :=
    hiter.mem_iff.2 hgT
  have hfindC : (env.iter (groupByThread (getChatgptThreadRels db m.id))).find?
      (fun g => g.2.getLast?.any (fun r => r.chatgptMessageId == m.id)) =
      some (T, (getChatgptThreadRels db m.id).filter (fun r => r.threadId == T)) :=
    find?_eq_some_of_unique _ _ _ hgT_iter hpredT hall
  have hfc : findCurrent (env.iter (groupByThread (getChatgptThreadRels db m.id)))
      m.id = some T := by
    unfold findCurrent
    rw [hfindC]
    rfl
  have hgne : groupByThread (getChatgptThreadRels db m.id) ≠ [] :=
    List.ne_nil_of_mem hgT
  simp only [getOrCreateCurrentThreadId, hfound]
  rw [if_neg hreply, if_neg hgne, hfc]

/-- Witness for claim C1 at a two-message thread whose newest message is the
replied-to status. -/
theorem resolverUnforkedReplyWitness :
    getOrCreateCurrentThreadId
      { myAccountId := "bot", normalize := fun s => s.content,
        iter := fun gs => gs, freshThreadId := 99,
        cloneFail := fun _ => false, ancestorsOf := fun _ => [],
        reconThreadId := 98, freshMsgId := fun i => 200 + i,
        msgFail := fun _ => false, relFail := fun _ => false }
      { messages :=
          [{ id := 2, messageType := "mastodon_status",
             body := { role := "user", content := "q0", name := "bob" },
             userName := "bob", mastodonStatusId := some ("x0"), timestamp := "t0",
             privacyLevel := "public" },
           { id := 1, messageType := "mastodon_status",
             body := { role := "assistant", content := "a0", name := "teobot" },
             userName := "teobot", mastodonStatusId := some ("x1"), timestamp := "t1",
             privacyLevel := "public" }],
        threads := [7],
        rels := [{ threadId := 7, chatgptMessageId := 2, sequenceNum := 1 },
                 { threadId := 7, chatgptMessageId := 1, sequenceNum := 2 }] }
      { id := "s9", inReplyToId := "x1", content := "hey", accountId := "u3",
        accountAcct := "bob", visibility := "public", createdAt := "t9" } =
      (some 7,
        { messages :=
            [{ id := 2, messageType := "mastodon_status",
               body := { role := "user", content := "q0", name := "bob" },
               userName := "bob", mastodonStatusId := some ("x0"), timestamp := "t0",
               privacyLevel := "public" },
             { id := 1, messageType := "mastodon_status",
               body := { role := "assistant", content := "a0", name := "teobot" },
               userName := "teobot", mastodonStatusId := some ("x1"), timestamp := "t1",
               privacyLevel := "public" }],
          threads := [7],
          rels := [{ threadId := 7, chatgptMessageId := 2, sequenceNum := 1 },
                   { threadId := 7, chatgptMessageId := 1, sequenceNum := 2 }] }) :=
  resolverUnforkedReply
    { myAccountId := "bot", normalize := fun s => s.content,
      iter := fun gs => gs, freshThreadId := 99,
      cloneFail := fun _ => false, ancestorsOf := fun _ => [],
      reconThreadId := 98, freshMsgId := fun i => 200 + i,
      msgFail := fun _ => false, relFail := fun _ => false }
    { messages :=
        [{ id := 2, messageType := "mastodon_status",
           body := { role := "user", content := "q0", name := "bob" },
           userName := "bob", mastodonStatusId := some ("x0"), timestamp := "t0",
           privacyLevel := "public" },
         { id := 1, messageType := "mastodon_status",
           body := { role := "assistant", content := "a0", name := "teobot" },
           userName := "teobot", mastodonStatusId := some ("x1"), timestamp := "t1",
           privacyLevel := "public" }],
      threads := [7],
      rels := [{ threadId := 7, chatgptMessageId := 2, sequenceNum := 1 },
               { threadId := 7, chatgptMessageId := 1, sequenceNum := 2 }] }
    { id := "s9", inReplyToId := "x1", content := "hey", accountId := "u3",
      accountAcct := "bob", visibility := "public", createdAt := "t9" }
    { id := 1, messageType := "mastodon_status",
      body := { role := "assistant", content := "a0", name := "teobot" },
      userName := "teobot", mastodonStatusId := some ("x1"), timestamp := "t1",
      privacyLevel := "public" }
    7
    (by decide) (by decide) (List.Perm.refl _) (by decide)
    (by unfold isLastMessageOf relsOfThread; decide)
    (by unfold isLastMessageOf relsOfThread; decide)
    (by unfold distinctSeqs relsOfThread; decide)
